import Mathlib

/-! Translation chaining in `hphp/runtime/vm/jit/srcdb.cpp`.

A shallow embedding of `IncomingBranch` and `SrcRec` from the HHVM JIT and a
verification of the chaining, guard, invalidation and relocation behaviour
described for them.

Conventions of the embedding:

* a translation-cache address (`TCA`) is a natural number and `0` is `nullptr`;
* the code cache is passed explicitly: every operation that smashes a branch
  takes the current `CodeCache` and returns the new one;
* `assertx` is a fatal check, as in a debug build: an operation whose
  assertion fails returns `none`, an operation that completes returns `some`
  of its results;
* the encoder (`mcg->backEnd()`) is a parameter of every operation. Statements
  that rest on the encoder contract alone are proved for every back end that
  meets it; statements about whole patch loops are proved for `specBackEnd`.
-/

namespace HPHP.jit

/-! ## Data model -/

/-- Translation-cache address. The null pointer is `0`. -/
abbrev TCA := Nat

/-- The kind of a smashable branch (`IncomingBranch::Tag`). -/
inductive Tag where
  | JMP
  | JCC
  | ADDR
deriving DecidableEq, Repr

/-- The tagged pointer `m_ptr` of an `IncomingBranch`: its tag is `type()`, its
pointer is `toSmash()`. -/
structure IncomingBranch where
  type : Tag
  toSmash : TCA
deriving DecidableEq, Repr

/-- Modelled from the spec: the contents of the code cache, which is not part
of `srcdb.cpp`, one word per location: the raw address word of an address
slot, or the encoding of the branch that sits at the location. -/
abbrev CodeCache := TCA → TCA

/-- The store `*addr = dest` of one word: only location `at_` changes. -/
def CodeCache.store (code : CodeCache) (at_ dest : TCA) : CodeCache :=
  fun a => if a = at_ then dest else code a

/-- The encoder interface that `srcdb.cpp` reaches through `mcg->backEnd()`
(the class `BackEnd` is declared in `back-end.h`, which is not among the
sources at hand), taken as a parameter: the two smash operations rewrite the
code cache, the two decoders read a target back. -/
structure BackEnd where
  smashJmp : CodeCache → TCA → TCA → CodeCache
  smashJcc : CodeCache → TCA → TCA → CodeCache
  jmpTarget : CodeCache → TCA → TCA
  jccTarget : CodeCache → TCA → TCA

/-- Modelled from the spec: the back end in use, in which the encoding of a
branch is its target. A smash replaces the target held at the smashed
location and touches no other location; a decoder returns the target held at
the location it reads, so that a read after a smash at the same address
returns the new target. -/
def specBackEnd : BackEnd :=
  { smashJmp := fun code at_ dest => code.store at_ dest
    smashJcc := fun code at_ dest => code.store at_ dest
    jmpTarget := fun code at_ => code at_
    jccTarget := fun code at_ => code at_ }

/-- The relocation map (`RelocationInfo`, declared in `relocation.h`), taken
as a parameter: `adjustedAddressAfter a` is the new address of `a`, or
`nullptr` when `a` did not move. -/
structure RelocationInfo where
  adjustedAddressAfter : TCA → TCA

/-- The runtime options read by `srcdb.cpp`. -/
structure RuntimeOption where
  EvalJitMaxTranslations : Nat
  RepoAuthoritative : Bool
  EvalJitPGO : Bool

/-- What `srcdb.cpp` reads from the global `mcg` and from `RuntimeOption`:
the options and the predicate `mcg->code.isValidCodeAddress`. -/
structure MCGenerator where
  options : RuntimeOption
  isValidCodeAddress : TCA → Bool

/-- The per-source-location record `SrcRec` (the fields `srcdb.cpp` uses; the
unit MD5 set by `setFuncInfo` plays no role in chaining). -/
structure SrcRec where
  m_anchorTranslation : TCA
  m_topTranslation : TCA
  m_translations : List TCA
  m_tailFallbackJumps : List IncomingBranch
  m_incomingBranches : List IncomingBranch
  m_dbgBranchGuardSrc : TCA

/-- A record together with the code cache its branches live in. -/
structure State where
  sr : SrcRec
  code : CodeCache

/-! ## `IncomingBranch` -/

/-- `IncomingBranch::patch(dest)`: smash the branch so that it goes to `dest`.
The alignment assertion of the `ADDR` case is about memory layout and has no
counterpart in this model of the code cache; `recordRelocMap` only feeds the
debug info. -/
def IncomingBranch.patch (b : IncomingBranch) (be : BackEnd) (code : CodeCache) (dest : TCA) :
    CodeCache :=
  match b.type with
  | Tag.JMP => be.smashJmp code b.toSmash dest
  | Tag.JCC => be.smashJcc code b.toSmash dest
  | Tag.ADDR => code.store b.toSmash dest

/-- `IncomingBranch::target()`: read the current destination of the branch. -/
def IncomingBranch.target (b : IncomingBranch) (be : BackEnd) (code : CodeCache) : TCA :=
  match b.type with
  | Tag.JMP => be.jmpTarget code b.toSmash
  | Tag.JCC => be.jccTarget code b.toSmash
  | Tag.ADDR => code b.toSmash

/-- `IncomingBranch::relocate(rel)`: the adjusted target is computed from the
branch as it stands, then the smash address is adjusted if it moved, then the
branch is patched (at the possibly new address) if its target moved. -/
def IncomingBranch.relocate (b : IncomingBranch) (be : BackEnd) (rel : RelocationInfo)
    (code : CodeCache) : IncomingBranch × CodeCache :=
  let adjustedTarget := rel.adjustedAddressAfter (b.target be code)
  let adjusted := rel.adjustedAddressAfter b.toSmash
  let b1 : IncomingBranch := if adjusted ≠ 0 then { type := b.type, toSmash := adjusted } else b
  if adjustedTarget ≠ 0 then (b1, b1.patch be code adjustedTarget) else (b1, code)

/-! ## `SrcRec` -/

/-- Modelled from the spec: `SrcRec::getTopTranslation` (declared in `srcdb.h`),
the read accessor of `m_topTranslation`. -/
def SrcRec.getTopTranslation (sr : SrcRec) : TCA :=
  sr.m_topTranslation

/-- Modelled from the spec: `SrcRec::hasDebuggerGuard` (declared in `srcdb.h`),
whether a debugger guard is active, that is whether `m_dbgBranchGuardSrc` is
set; `addDebuggerGuard` asserts the same field to be null before installing. -/
def SrcRec.hasDebuggerGuard (sr : SrcRec) : Bool :=
  sr.m_dbgBranchGuardSrc != 0

/-- `SrcRec::getFallbackTranslation()`: the anchor, asserted non-null. -/
def SrcRec.getFallbackTranslation (sr : SrcRec) : Option TCA :=
  if sr.m_anchorTranslation ≠ 0 then some sr.m_anchorTranslation else none

/-- The loop `for (auto& br : branches) br.patch(dest)`. -/
def patchAll (be : BackEnd) (branches : List IncomingBranch) (code : CodeCache) (dest : TCA) :
    CodeCache :=
  branches.foldl (fun c br => br.patch be c dest) code

/-- `SrcRec::patchIncomingBranches(newStart)`: with a debugger guard only the
guard branch is smashed; otherwise every incoming branch is patched. -/
def SrcRec.patchIncomingBranches (sr : SrcRec) (be : BackEnd) (code : CodeCache)
    (newStart : TCA) : CodeCache :=
  if sr.hasDebuggerGuard then
    be.smashJmp code sr.m_dbgBranchGuardSrc newStart
  else
    patchAll be sr.m_incomingBranches code newStart

/-- `SrcRec::chainFrom(br)`. -/
def SrcRec.chainFrom (be : BackEnd) (mcg : MCGenerator) (st : State) (br : IncomingBranch) :
    Option State :=
  if br.type = Tag.ADDR ∨ mcg.isValidCodeAddress br.toSmash = true then
    let destAddr := st.sr.getTopTranslation
    let sr1 := { st.sr with m_incomingBranches := st.sr.m_incomingBranches ++ [br] }
    some { sr := sr1, code := br.patch be st.code destAddr }
  else
    none

/-- `SrcRec::newTranslation(newStart, tailBranches)`. The second component of
the result is what the caller finds in `tailBranches` after the `swap`. -/
def SrcRec.newTranslation (be : BackEnd) (mcg : MCGenerator) (st : State) (newStart : TCA)
    (tailBranches : List IncomingBranch) : Option (State × List IncomingBranch) :=
  if st.sr.m_translations.length ≤ mcg.options.EvalJitMaxTranslations then
    let sr1 := { st.sr with m_translations := st.sr.m_translations ++ [newStart] }
    let st2 : State :=
      if sr1.m_topTranslation = 0 then
        let sr2 := { sr1 with m_topTranslation := newStart }
        { sr := sr2, code := sr2.patchIncomingBranches be st.code newStart }
      else
        { sr := sr1, code := st.code }
    let code3 := patchAll be st2.sr.m_tailFallbackJumps st2.code newStart
    some ({ sr := { st2.sr with m_tailFallbackJumps := tailBranches }, code := code3 },
          st2.sr.m_tailFallbackJumps)
  else
    none

/-- The loop `for (auto& ib : branches) ib.relocate(rel)`, threading the code
cache through the branches in order. -/
def relocateAll (be : BackEnd) (rel : RelocationInfo) :
    List IncomingBranch → CodeCache → List IncomingBranch × CodeCache
  | [], code => ([], code)
  | ib :: rest, code =>
    let r := ib.relocate be rel code
    let rs := relocateAll be rel rest r.2
    (r.1 :: rs.1, rs.2)

/-- The adjustment `if (auto adjusted = rel.adjustedAddressAfter(a)) a = adjusted`. -/
def RelocationInfo.adjust (rel : RelocationInfo) (a : TCA) : TCA :=
  if rel.adjustedAddressAfter a ≠ 0 then rel.adjustedAddressAfter a else a

/-- `SrcRec::relocate(rel)`. -/
def SrcRec.relocate (be : BackEnd) (rel : RelocationInfo) (st : State) : State :=
  let anchor := rel.adjust st.sr.m_anchorTranslation
  let top := rel.adjust st.sr.m_topTranslation
  let translations := st.sr.m_translations.map rel.adjust
  let tail := relocateAll be rel st.sr.m_tailFallbackJumps st.code
  let incoming := relocateAll be rel st.sr.m_incomingBranches tail.2
  { sr := { m_anchorTranslation := anchor
            m_topTranslation := top
            m_translations := translations
            m_tailFallbackJumps := tail.1
            m_incomingBranches := incoming.1
            m_dbgBranchGuardSrc := st.sr.m_dbgBranchGuardSrc }
    code := incoming.2 }

/-- `SrcRec::addDebuggerGuard(dbgGuard, dbgBranchGuardSrc)`. -/
def SrcRec.addDebuggerGuard (be : BackEnd) (st : State) (dbgGuard dbgBranchGuardSrc : TCA) :
    Option State :=
  if st.sr.m_dbgBranchGuardSrc = 0 then
    let code1 := st.sr.patchIncomingBranches be st.code dbgGuard
    some { sr := { st.sr with m_dbgBranchGuardSrc := dbgBranchGuardSrc
                              m_topTranslation := dbgGuard }
           code := code1 }
  else
    none

/-- `SrcRec::replaceOldTranslations()`. -/
def SrcRec.replaceOldTranslations (be : BackEnd) (mcg : MCGenerator) (st : State) :
    Option State :=
  let sr1 := { st.sr with m_translations := []
                          m_tailFallbackJumps := []
                          m_topTranslation := 0 }
  if mcg.options.RepoAuthoritative = false ∨ mcg.options.EvalJitPGO = true then
    some { sr := sr1, code := sr1.patchIncomingBranches be st.code sr1.m_anchorTranslation }
  else
    none

/-! ## The effects of one call, in program order -/

/-- One effect of a `SrcRec` operation on the record or on the code cache. -/
inductive Effect where
  | pushTranslation (newStart : TCA)
  | storeTopTranslation (dest : TCA)
  | patchBranch (br : IncomingBranch) (dest : TCA)
  | smashGuardBranch (at_ dest : TCA)
  | swapTailFallbackJumps (tailBranches : List IncomingBranch)
  | setDbgBranchGuardSrc (at_ : TCA)
deriving DecidableEq, Repr

/-- What one effect does to the state: `m_translations.push_back`,
`m_topTranslation.store`, `br.patch(dest)`, `smashJmp` on the guard branch,
`m_tailFallbackJumps.swap`, and the assignment of `m_dbgBranchGuardSrc`. -/
def Effect.apply (be : BackEnd) : Effect → State → State
  | Effect.pushTranslation newStart, st =>
    { sr := { st.sr with m_translations := st.sr.m_translations ++ [newStart] }, code := st.code }
  | Effect.storeTopTranslation dest, st =>
    { sr := { st.sr with m_topTranslation := dest }, code := st.code }
  | Effect.patchBranch br dest, st =>
    { sr := st.sr, code := br.patch be st.code dest }
  | Effect.smashGuardBranch at_ dest, st =>
    { sr := st.sr, code := be.smashJmp st.code at_ dest }
  | Effect.swapTailFallbackJumps tailBranches, st =>
    { sr := { st.sr with m_tailFallbackJumps := tailBranches }, code := st.code }
  | Effect.setDbgBranchGuardSrc at_, st =>
    { sr := { st.sr with m_dbgBranchGuardSrc := at_ }, code := st.code }

/-- The effects of a sequence, applied in order. -/
def runEffects (be : BackEnd) (effects : List Effect) (st : State) : State :=
  effects.foldl (fun s e => e.apply be s) st

/-- The effects of `SrcRec::patchIncomingBranches(newStart)`, in program order. -/
def SrcRec.patchIncomingBranchesEffects (sr : SrcRec) (newStart : TCA) : List Effect :=
  if sr.hasDebuggerGuard then
    [Effect.smashGuardBranch sr.m_dbgBranchGuardSrc newStart]
  else
    sr.m_incomingBranches.map (fun br => Effect.patchBranch br newStart)

/-- The effects of `SrcRec::newTranslation(newStart, tailBranches)`, in program
order: the `push_back`, then (on a null top translation) the store of the top
translation followed by `patchIncomingBranches`, then the patches of the tail
jumps, then the `swap`. -/
def SrcRec.newTranslationEffects (mcg : MCGenerator) (sr : SrcRec) (newStart : TCA)
    (tailBranches : List IncomingBranch) : Option (List Effect) :=
  if sr.m_translations.length ≤ mcg.options.EvalJitMaxTranslations then
    some ([Effect.pushTranslation newStart]
      ++ (if sr.m_topTranslation = 0 then
            Effect.storeTopTranslation newStart :: sr.patchIncomingBranchesEffects newStart
          else [])
      ++ sr.m_tailFallbackJumps.map (fun br => Effect.patchBranch br newStart)
      ++ [Effect.swapTailFallbackJumps tailBranches])
  else
    none

/-- The effects of `SrcRec::addDebuggerGuard(dbgGuard, dbgBranchGuardSrc)`, in
program order: `patchIncomingBranches`, then the assignment of
`m_dbgBranchGuardSrc`, then the store of the top translation. -/
def SrcRec.addDebuggerGuardEffects (sr : SrcRec) (dbgGuard dbgBranchGuardSrc : TCA) :
    Option (List Effect) :=
  if sr.m_dbgBranchGuardSrc = 0 then
    some (sr.patchIncomingBranchesEffects dbgGuard
      ++ [Effect.setDbgBranchGuardSrc dbgBranchGuardSrc, Effect.storeTopTranslation dbgGuard])
  else
    none

/-! ## Fallback jumps -/

/-- The condition code of a jump (`ConditionCode`, declared with the
assembler): an integer, with `CC_None` for an unconditional jump. -/
abbrev ConditionCode := Int

/-- The condition code `CC_None`, the default `-1` of the `cc` arguments. -/
def CC_None : ConditionCode := -1

/-- The code block `cb` that a jump is emitted into; of the block only the
frontier, the next write position, is read by `srcdb.cpp`. -/
structure CodeBlock where
  frontier : TCA

/-- What `emitFallbackJump` uses of the back end and of the `x64` constants
(none of them among the sources at hand), taken as parameters:
`prepareForSmash(cb, size)`, `emitSmashableJump(cb, dest, cc)`, and the lengths
`kJmpLen` and `kJmpccLen`. Both operations may write the code cache and move
the frontier. -/
structure BackEndEmit where
  prepareForSmash : CodeCache → CodeBlock → Nat → CodeCache × CodeBlock
  emitSmashableJump : CodeCache → CodeBlock → TCA → ConditionCode → CodeCache × CodeBlock
  kJmpLen : Nat
  kJmpccLen : Nat

/-- Modelled from the spec: `IncomingBranch::jmpFrom` (declared in `srcdb.h`),
the unconditional-jump branch whose smash address is `from_`. -/
def IncomingBranch.jmpFrom (from_ : TCA) : IncomingBranch :=
  { type := Tag.JMP, toSmash := from_ }

/-- Modelled from the spec: `IncomingBranch::jccFrom` (declared in `srcdb.h`),
the conditional-jump branch whose smash address is `from_`. -/
def IncomingBranch.jccFrom (from_ : TCA) : IncomingBranch :=
  { type := Tag.JCC, toSmash := from_ }

/-- What `emitFallbackJump` works on: the record and the code cache, the code
block, and the list `mcg->cgFixups().m_inProgressTailJumps`. -/
structure EmitState where
  st : State
  cb : CodeBlock
  m_inProgressTailJumps : List IncomingBranch

/-- `SrcRec::registerFallbackJump(from, cc)`: the branch is pushed on the list
of in-progress tail jumps. -/
def SrcRec.registerFallbackJump (inProgressTailJumps : List IncomingBranch) (from_ : TCA)
    (cc : ConditionCode) : List IncomingBranch :=
  let incoming := if cc < 0 then IncomingBranch.jmpFrom from_ else IncomingBranch.jccFrom from_
  inProgressTailJumps ++ [incoming]

/-- `SrcRec::emitFallbackJump(cb, cc)`. -/
def SrcRec.emitFallbackJump (em : BackEndEmit) (es : EmitState) (cc : ConditionCode) :
    Option EmitState :=
  let prepared := em.prepareForSmash es.st.code es.cb
    (if cc = CC_None then em.kJmpLen else em.kJmpccLen)
  let from_ := prepared.2.frontier
  match es.st.sr.getFallbackTranslation with
  | none => none
  | some destAddr =>
    let emitted := em.emitSmashableJump prepared.1 prepared.2 destAddr cc
    some { st := { sr := es.st.sr, code := emitted.1 }
           cb := emitted.2
           m_inProgressTailJumps :=
             SrcRec.registerFallbackJump es.m_inProgressTailJumps from_ cc }

/-! ## Sequences of operations on one record -/

/-- One call of an operation of `SrcRec`, with its arguments. -/
inductive Op where
  | chainFrom (br : IncomingBranch)
  | newTranslation (newStart : TCA) (tailBranches : List IncomingBranch)
  | addDebuggerGuard (dbgGuard dbgBranchGuardSrc : TCA)
  | replaceOldTranslations
  | relocate (rel : RelocationInfo)

/-- The state after one call, or `none` when an assertion of the call fails. -/
def Op.apply (be : BackEnd) (mcg : MCGenerator) : Op → State → Option State
  | Op.chainFrom br, st => SrcRec.chainFrom be mcg st br
  | Op.newTranslation newStart tailBranches, st =>
    (SrcRec.newTranslation be mcg st newStart tailBranches).map Prod.fst
  | Op.addDebuggerGuard dbgGuard dbgBranchGuardSrc, st =>
    SrcRec.addDebuggerGuard be st dbgGuard dbgBranchGuardSrc
  | Op.replaceOldTranslations, st => SrcRec.replaceOldTranslations be mcg st
  | Op.relocate rel, st => some (SrcRec.relocate be rel st)

/-- The state after a sequence of calls, each of which completes. -/
def runOps (be : BackEnd) (mcg : MCGenerator) : List Op → State → Option State
  | [], st => some st
  | op :: ops, st => (op.apply be mcg st).bind (runOps be mcg ops)

/-- The entry address of a `newTranslation` and the guard address of an
`addDebuggerGuard` are non-null. -/
def Op.nonNull : Op → Bool
  | Op.newTranslation newStart _ => newStart != 0
  | Op.addDebuggerGuard dbgGuard _ => dbgGuard != 0
  | _ => true

/-- The map of a `relocate` reports the null address as not moved (a
relocation map is keyed by code addresses, and `SrcRec::relocate` queries it
with a possibly null top translation). -/
def Op.keepsNull : Op → Bool
  | Op.relocate rel => rel.adjustedAddressAfter 0 == 0
  | _ => true

/-- The guard address after one call: `addDebuggerGuard` installs it, a
relocation adjusts it, the other calls leave it. -/
def Op.guardAddress : Op → TCA → TCA
  | Op.addDebuggerGuard dbgGuard _, _ => dbgGuard
  | Op.relocate rel, g => rel.adjust g
  | _, g => g

/-- The guard address installed by the calls of a sequence, as adjusted by the
relocations that follow the installation; `g0` before any installation. -/
def guardAddressAfter (ops : List Op) (g0 : TCA) : TCA :=
  ops.foldl (fun g op => op.guardAddress g) g0

/-- The call is a `chainFrom`, a `newTranslation` with a non-null entry
address, or a `replaceOldTranslations`. -/
def Op.chainsOnly : Op → Bool
  | Op.chainFrom _ => true
  | Op.newTranslation newStart _ => newStart != 0
  | Op.replaceOldTranslations => true
  | _ => false

/-- The smash addresses of the incoming branches registered by a sequence. -/
def registeredAddrs : List Op → List TCA
  | [] => []
  | Op.chainFrom br :: ops => br.toSmash :: registeredAddrs ops
  | _ :: ops => registeredAddrs ops

/-- The smash addresses of the tail branches supplied by a sequence. -/
def suppliedTailAddrs : List Op → List TCA
  | [] => []
  | Op.newTranslation _ tailBranches :: ops =>
    tailBranches.map IncomingBranch.toSmash ++ suppliedTailAddrs ops
  | _ :: ops => suppliedTailAddrs ops

/-- Modelled from the spec: the record as constructed with its anchor (the
constructor and `setAnchorTranslation` are in `srcdb.h`): the anchor is set,
`m_topTranslation` is null, every list is empty and no guard is installed. -/
def SrcRec.fresh (anchor : TCA) : SrcRec :=
  { m_anchorTranslation := anchor
    m_topTranslation := 0
    m_translations := []
    m_tailFallbackJumps := []
    m_incomingBranches := []
    m_dbgBranchGuardSrc := 0 }

/-! ## Concrete inputs used by the closed statements below -/

/-- An environment with room for eight translations, not repo-authoritative,
in which every address is a valid code address. -/
def mcgEx : MCGenerator :=
  { options := { EvalJitMaxTranslations := 8, RepoAuthoritative := false, EvalJitPGO := false }
    isValidCodeAddress := fun _ => true }

/-- A code cache in which the location `210` holds `100` and every other
location holds `77`. -/
def codeEx : CodeCache :=
  fun a => if a = 210 then 100 else 77

/-- An unresolved record with anchor `5`, two incoming branches and one
pending tail jump. -/
def unresolvedEx : State :=
  { sr := { m_anchorTranslation := 5
            m_topTranslation := 0
            m_translations := []
            m_tailFallbackJumps := [{ type := Tag.JCC, toSmash := 30 }]
            m_incomingBranches := [{ type := Tag.JMP, toSmash := 10 },
                                   { type := Tag.ADDR, toSmash := 16 }]
            m_dbgBranchGuardSrc := 0 }
    code := codeEx }

/-- A code cache for a guarded record: the incoming jump at `10` goes to the
guard at `200`, the guard branch at `210` goes to the translation at `100`. -/
def guardedCodeEx : CodeCache :=
  fun a => if a = 10 then 200 else if a = 210 then 100 else 0

/-- A record with a debugger guard installed: the guard `200` is the top
translation, its branch is at `210`, and one jump at `10` comes in. -/
def guardedEx : State :=
  { sr := { m_anchorTranslation := 5
            m_topTranslation := 200
            m_translations := [100]
            m_tailFallbackJumps := []
            m_incomingBranches := [{ type := Tag.JMP, toSmash := 10 }]
            m_dbgBranchGuardSrc := 210 }
    code := guardedCodeEx }

/-- A code cache for a resolved record: the incoming jump at `10` and the
jump at `210` both go to the translation at `100`. -/
def resolvedCodeEx : CodeCache :=
  fun a => if a = 10 then 100 else if a = 210 then 100 else 0

/-- A resolved record without a guard: one translation at `100`, which is the
top translation, and one incoming jump at `10`. -/
def resolvedEx : State :=
  { sr := { m_anchorTranslation := 5
            m_topTranslation := 100
            m_translations := [100]
            m_tailFallbackJumps := []
            m_incomingBranches := [{ type := Tag.JMP, toSmash := 10 }]
            m_dbgBranchGuardSrc := 0 }
    code := resolvedCodeEx }

/-- A code cache in which the jump at `20` goes to the anchor `5` (as a freshly
emitted fallback jump does) and every other location holds `0`. -/
def scenarioCodeEx : CodeCache :=
  fun a => if a = 20 then 5 else 0

/-- A relocation that moves `10` to `1010`, `100` to `1100` and `210` to
`1210`, and reports every other address as not moved. -/
def relEx : RelocationInfo :=
  { adjustedAddressAfter := fun a =>
      if a = 10 then 1010 else if a = 100 then 1100 else if a = 210 then 1210 else 0 }

/-- A relocation that reports every address as not moved. -/
def relNoneEx : RelocationInfo :=
  { adjustedAddressAfter := fun _ => 0 }

/-- A code cache in which the jump at `10` goes to `50` while the location
`1010` holds `100`. -/
def staleCodeEx : CodeCache :=
  fun a => if a = 10 then 50 else if a = 1010 then 100 else 0

/-- A resolved record whose only incoming jump, at `10`, goes to the top
translation `50`, in the code cache `staleCodeEx`. -/
def staleEx : State :=
  { sr := { m_anchorTranslation := 5
            m_topTranslation := 50
            m_translations := [50]
            m_tailFallbackJumps := []
            m_incomingBranches := [{ type := Tag.JMP, toSmash := 10 }]
            m_dbgBranchGuardSrc := 0 }
    code := staleCodeEx }

/-- A relocation that moves the guard `200` to `1200` and the translation
`100` to `1100`, and reports every other address as not moved. -/
def relGuardEx : RelocationInfo :=
  { adjustedAddressAfter := fun a => if a = 200 then 1200 else if a = 100 then 1100 else 0 }

/-- An environment like `mcgEx` with a limit of one translation. -/
def mcgOneEx : MCGenerator :=
  { options := { EvalJitMaxTranslations := 1, RepoAuthoritative := false, EvalJitPGO := false }
    isValidCodeAddress := fun _ => true }

/-- An emitter for the modelled back end: `prepareForSmash` moves the frontier
to the next line of `64` locations when the instruction would straddle a line,
`emitSmashableJump` puts the target at the frontier and advances it by the
length of the jump. -/
def emitEx : BackEndEmit :=
  { prepareForSmash := fun code cb size =>
      (code, { frontier := if cb.frontier % 64 + size > 64 then (cb.frontier / 64 + 1) * 64
                           else cb.frontier })
    emitSmashableJump := fun code cb dest cc =>
      (code.store cb.frontier dest, { frontier := cb.frontier + (if cc = CC_None then 5 else 6) })
    kJmpLen := 5
    kJmpccLen := 6 }

/-- The record `resolvedEx` with a code block whose frontier is `60` and no
tail jump in progress. -/
def emitStateEx : EmitState :=
  { st := resolvedEx, cb := { frontier := 60 }, m_inProgressTailJumps := [] }

/-- A sequence of calls: an incoming jump is chained, a translation `100` is
added, the guard `200` with branch `210` is installed, and the record is
relocated with `relGuardEx`. -/
def guardedOpsEx : List Op :=
  [Op.chainFrom { type := Tag.JMP, toSmash := 10 },
   Op.newTranslation 100 [{ type := Tag.JCC, toSmash := 30 }],
   Op.addDebuggerGuard 200 210,
   Op.relocate relGuardEx]

/-- The sequence `guardedOpsEx` followed by an invalidation. -/
def invalidatedOpsEx : List Op :=
  guardedOpsEx ++ [Op.replaceOldTranslations]

/-- A sequence of calls without guard and relocation: two jumps are chained
around two translations, the record is invalidated and translated again. -/
def chainOpsEx : List Op :=
  [Op.chainFrom { type := Tag.JMP, toSmash := 10 },
   Op.newTranslation 100 [{ type := Tag.JCC, toSmash := 30 }],
   Op.chainFrom { type := Tag.ADDR, toSmash := 16 },
   Op.newTranslation 300 [{ type := Tag.JMP, toSmash := 40 }],
   Op.replaceOldTranslations,
   Op.newTranslation 500 [{ type := Tag.JCC, toSmash := 60 }]]

/-- A code cache in which the jump at `10` goes to `100` and the location
`1010` holds a copy of that word. -/
def copiedCodeEx : CodeCache :=
  fun a => if a = 10 then 100 else if a = 1010 then 100 else 0

/-- The record `resolvedEx` in the code cache `copiedCodeEx`. -/
def copiedEx : State :=
  { sr := resolvedEx.sr, code := copiedCodeEx }

/-- A relocation that reports the null address as moved to `900` and every
other address as not moved. -/
def relNullEx : RelocationInfo :=
  { adjustedAddressAfter := fun a => if a = 0 then 900 else 0 }

/-- A sequence of calls: the guard `200` with branch `210` is installed, the
record is invalidated, and it is relocated with `relNullEx`. -/
def nullMovedOpsEx : List Op :=
  [Op.addDebuggerGuard 200 210,
   Op.replaceOldTranslations,
   Op.relocate relNullEx]

/-! ## Basic facts about the code cache and single branches -/

theorem store_apply (code : CodeCache) (at_ dest a : TCA) :
    code.store at_ dest a = if a = at_ then dest else code a := rfl

theorem specBackEnd_smashJmp (code : CodeCache) (at_ dest : TCA) :
    specBackEnd.smashJmp code at_ dest = code.store at_ dest := rfl

theorem specBackEnd_smashJcc (code : CodeCache) (at_ dest : TCA) :
    specBackEnd.smashJcc code at_ dest = code.store at_ dest := rfl

theorem specBackEnd_jmpTarget (code : CodeCache) (at_ : TCA) :
    specBackEnd.jmpTarget code at_ = code at_ := rfl

theorem specBackEnd_jccTarget (code : CodeCache) (at_ : TCA) :
    specBackEnd.jccTarget code at_ = code at_ := rfl

theorem patch_eq_store (b : IncomingBranch) (code : CodeCache) (dest : TCA) :
    b.patch specBackEnd code dest = code.store b.toSmash dest := by
  cases b with
  | mk ty s => cases ty <;> rfl

theorem target_eq_read (b : IncomingBranch) (code : CodeCache) :
    b.target specBackEnd code = code b.toSmash := by
  cases b with
  | mk ty s => cases ty <;> rfl

theorem patchAll_nil (code : CodeCache) (dest : TCA) :
    patchAll specBackEnd [] code dest = code := rfl

theorem patchAll_cons (b : IncomingBranch) (bs : List IncomingBranch) (code : CodeCache)
    (dest : TCA) :
    patchAll specBackEnd (b :: bs) code dest =
      patchAll specBackEnd bs (b.patch specBackEnd code dest) dest := rfl

/-- After the patch loop, a location holds `dest` if some branch of the list
is smashed there, and is untouched otherwise. -/
theorem patchAll_apply (bs : List IncomingBranch) (code : CodeCache) (dest a : TCA) :
    patchAll specBackEnd bs code dest a =
      if a ∈ bs.map IncomingBranch.toSmash then dest else code a := by
  induction bs generalizing code with
  | nil => simp [patchAll_nil]
  | cons b bs ih =>
    rw [patchAll_cons, ih, patch_eq_store, store_apply]
    by_cases h1 : a ∈ bs.map IncomingBranch.toSmash
    · simp [h1]
    · by_cases h2 : a = b.toSmash
      · simp [h2]
      · simp [h1, h2]

theorem patchAll_target_of_mem (bs : List IncomingBranch) (code : CodeCache) (dest : TCA)
    (b : IncomingBranch) (hb : b ∈ bs) :
    b.target specBackEnd (patchAll specBackEnd bs code dest) = dest := by
  rw [target_eq_read, patchAll_apply]
  have : b.toSmash ∈ bs.map IncomingBranch.toSmash := List.mem_map_of_mem _ hb
  simp [this]

theorem patchAll_of_not_mem (bs : List IncomingBranch) (code : CodeCache) (dest a : TCA)
    (ha : a ∉ bs.map IncomingBranch.toSmash) : patchAll specBackEnd bs code dest a = code a := by
  rw [patchAll_apply]
  simp [ha]

/-- A patch loop writing `dest` keeps every location that already holds `dest`. -/
theorem patchAll_keeps (bs : List IncomingBranch) (code : CodeCache) (dest a : TCA)
    (ha : code a = dest) : patchAll specBackEnd bs code dest a = dest := by
  rw [patchAll_apply]
  split
  · rfl
  · exact ha

theorem patchIncomingBranches_no_guard (be : BackEnd) (sr : SrcRec) (code : CodeCache)
    (dest : TCA) (h : sr.hasDebuggerGuard = false) :
    sr.patchIncomingBranches be code dest = patchAll be sr.m_incomingBranches code dest := by
  simp [SrcRec.patchIncomingBranches, h]

theorem patchIncomingBranches_guard (sr : SrcRec) (code : CodeCache) (dest : TCA)
    (h : sr.hasDebuggerGuard = true) :
    sr.patchIncomingBranches specBackEnd code dest = code.store sr.m_dbgBranchGuardSrc dest := by
  simp [SrcRec.patchIncomingBranches, h, specBackEnd_smashJmp]

/-- What `newTranslation` computes when its assertion passes, field by field. -/
theorem newTranslation_eq (mcg : MCGenerator) (st : State) (t : TCA)
    (tail : List IncomingBranch)
    (hlimit : st.sr.m_translations.length ≤ mcg.options.EvalJitMaxTranslations) :
    SrcRec.newTranslation specBackEnd mcg st t tail =
      some ({ sr := { m_anchorTranslation := st.sr.m_anchorTranslation
                      m_topTranslation :=
                        if st.sr.m_topTranslation = 0 then t else st.sr.m_topTranslation
                      m_translations := st.sr.m_translations ++ [t]
                      m_tailFallbackJumps := tail
                      m_incomingBranches := st.sr.m_incomingBranches
                      m_dbgBranchGuardSrc := st.sr.m_dbgBranchGuardSrc }
              code := patchAll specBackEnd st.sr.m_tailFallbackJumps
                        (if st.sr.m_topTranslation = 0 then
                          st.sr.patchIncomingBranches specBackEnd st.code t
                         else st.code) t },
            st.sr.m_tailFallbackJumps) := by
  unfold SrcRec.newTranslation
  rw [if_pos hlimit]
  by_cases htop : st.sr.m_topTranslation = 0
  · simp only [htop, if_true]
    rfl
  · simp only [htop, if_false]

/-! ## C1: the first translation of an unresolved record -/

/-- C1. On an unresolved record (null `m_topTranslation`, no debugger guard)
whose translation count passes the assertion, `newTranslation(t1, tail)`
completes for every entry address `t1`; afterwards `m_topTranslation` is `t1`,
`m_translations` is the old sequence with `t1` appended, the list of incoming
branches is the same, and every incoming branch has `target() == t1`. -/
theorem newTranslation_unresolved (mcg : MCGenerator) (st : State) (t1 : TCA)
    (tail : List IncomingBranch)
    (hlimit : st.sr.m_translations.length ≤ mcg.options.EvalJitMaxTranslations)
    (htop : st.sr.m_topTranslation = 0)
    (hguard : st.sr.hasDebuggerGuard = false) :
    ∃ st1 out, SrcRec.newTranslation specBackEnd mcg st t1 tail = some (st1, out) ∧
      st1.sr.m_topTranslation = t1 ∧
      st1.sr.m_translations = st.sr.m_translations ++ [t1] ∧
      st1.sr.m_incomingBranches = st.sr.m_incomingBranches ∧
      ∀ b ∈ st.sr.m_incomingBranches, b.target specBackEnd st1.code = t1 := by
  refine ⟨_, _, newTranslation_eq mcg st t1 tail hlimit, ?_, rfl, rfl, ?_⟩
  · simp [htop]
  · intro b hb
    have h := patchAll_target_of_mem st.sr.m_incomingBranches st.code t1 b hb
    rw [target_eq_read] at h ⊢
    apply patchAll_keeps
    simp only [htop, if_true]
    rw [patchIncomingBranches_no_guard _ _ _ _ hguard]
    exact h

/-- C1 at a concrete input: the first translation `100` of `unresolvedEx`. -/
theorem newTranslation_unresolved_witness :
    ∃ st1 out, SrcRec.newTranslation specBackEnd mcgEx unresolvedEx 100 [] = some (st1, out) ∧
      st1.sr.m_topTranslation = 100 ∧
      st1.sr.m_translations = unresolvedEx.sr.m_translations ++ [100] ∧
      st1.sr.m_incomingBranches = unresolvedEx.sr.m_incomingBranches ∧
      ∀ b ∈ unresolvedEx.sr.m_incomingBranches, b.target specBackEnd st1.code = 100 :=
  newTranslation_unresolved mcgEx unresolvedEx 100 [] (by decide) rfl rfl

/-! ## C2: a second translation is chained behind the first -/

/-- C2. For every record and all addresses `t1 ≠ nullptr`, `t2` and branch
lists `tail1`, `tail2`, when the translation count leaves room for two more
entries: `newTranslation(t1, tail1)` followed by `newTranslation(t2, tail2)`
both complete, and afterwards every branch of `tail1` has `target() == t2`
(hence not `t1` when the two differ), `m_tailFallbackJumps` is exactly `tail2`,
the caller gets `tail1` back through the swap, and `m_topTranslation` is what
it was after the first call. -/
theorem newTranslation_twice (mcg : MCGenerator) (st : State) (t1 t2 : TCA)
    (tail1 tail2 : List IncomingBranch)
    (hlimit : st.sr.m_translations.length + 1 ≤ mcg.options.EvalJitMaxTranslations)
    (ht1 : t1 ≠ 0) :
    ∃ st1 out1 st2 out2,
      SrcRec.newTranslation specBackEnd mcg st t1 tail1 = some (st1, out1) ∧
      SrcRec.newTranslation specBackEnd mcg st1 t2 tail2 = some (st2, out2) ∧
      (∀ b ∈ tail1, b.target specBackEnd st2.code = t2) ∧
      (t1 ≠ t2 → ∀ b ∈ tail1, b.target specBackEnd st2.code ≠ t1) ∧
      st2.sr.m_tailFallbackJumps = tail2 ∧
      out2 = tail1 ∧
      st2.sr.m_topTranslation = st1.sr.m_topTranslation := by
  have h1 := newTranslation_eq mcg st t1 tail1 (Nat.le_of_succ_le hlimit)
  refine ⟨_, _, _, _, h1, newTranslation_eq mcg _ t2 tail2 ?_, ?_, ?_, rfl, rfl, ?_⟩
  · simpa using hlimit
  · intro b hb
    exact patchAll_target_of_mem tail1 _ t2 b hb
  · intro hne b hb h
    rw [patchAll_target_of_mem tail1 _ t2 b hb] at h
    exact hne h.symm
  · by_cases htop : st.sr.m_topTranslation = 0
    · simp [htop, ht1]
    · simp [htop]

/-- C2 at a concrete input: the translations `100` and `300` on `unresolvedEx`. -/
theorem newTranslation_twice_witness :
    ∃ st1 out1 st2 out2,
      SrcRec.newTranslation specBackEnd mcgEx unresolvedEx 100 [{ type := Tag.JMP, toSmash := 40 }]
        = some (st1, out1) ∧
      SrcRec.newTranslation specBackEnd mcgEx st1 300 [{ type := Tag.JCC, toSmash := 50 }]
        = some (st2, out2) ∧
      (∀ b ∈ [({ type := Tag.JMP, toSmash := 40 } : IncomingBranch)],
        b.target specBackEnd st2.code = 300) ∧
      (100 ≠ 300 → ∀ b ∈ [({ type := Tag.JMP, toSmash := 40 } : IncomingBranch)],
        b.target specBackEnd st2.code ≠ 100) ∧
      st2.sr.m_tailFallbackJumps = [{ type := Tag.JCC, toSmash := 50 }] ∧
      out2 = [{ type := Tag.JMP, toSmash := 40 }] ∧
      st2.sr.m_topTranslation = st1.sr.m_topTranslation :=
  newTranslation_twice mcgEx unresolvedEx 100 300 [{ type := Tag.JMP, toSmash := 40 }]
    [{ type := Tag.JCC, toSmash := 50 }] (by decide) (by decide)

/-! ## C3: invalidation -/

/-- What `replaceOldTranslations` computes when its assertion passes. -/
theorem replaceOldTranslations_eq (mcg : MCGenerator) (st : State)
    (hmode : mcg.options.RepoAuthoritative = false ∨ mcg.options.EvalJitPGO = true) :
    SrcRec.replaceOldTranslations specBackEnd mcg st =
      some { sr := { m_anchorTranslation := st.sr.m_anchorTranslation
                     m_topTranslation := 0
                     m_translations := []
                     m_tailFallbackJumps := []
                     m_incomingBranches := st.sr.m_incomingBranches
                     m_dbgBranchGuardSrc := st.sr.m_dbgBranchGuardSrc }
             code := st.sr.patchIncomingBranches specBackEnd st.code
                       st.sr.m_anchorTranslation } := by
  unfold SrcRec.replaceOldTranslations
  simp only [if_pos hmode]
  rfl

/-- C3, as stated, fails on a guarded record: `replaceOldTranslations()` on
`guardedEx` (anchor `5`, guard branch at `210`, one incoming jump at `10` that
goes to the guard `200`) leaves that incoming jump on `200`, not on the anchor. -/
theorem replaceOldTranslations_guarded_counterexample :
    (SrcRec.replaceOldTranslations specBackEnd mcgEx guardedEx).map
        (fun st1 => (st1.sr.m_anchorTranslation,
                     st1.sr.m_incomingBranches.map (fun b => b.target specBackEnd st1.code),
                     specBackEnd.jmpTarget st1.code 210))
      = some (5, [200], 5) := by
  decide

/-- C3, amended. In every state in which the mode assertion passes,
`replaceOldTranslations()` completes; afterwards `m_translations` and
`m_tailFallbackJumps` are empty, `m_topTranslation` is null, the anchor, the
list of incoming branches and the guard branch address are unchanged; when no
debugger guard is installed every incoming branch has `target()` equal to the
anchor; when a guard is installed the jump at the guard branch address goes to
the anchor and no other location of the code cache changes. -/
theorem replaceOldTranslations_spec (mcg : MCGenerator) (st : State)
    (hmode : mcg.options.RepoAuthoritative = false ∨ mcg.options.EvalJitPGO = true) :
    ∃ st1, SrcRec.replaceOldTranslations specBackEnd mcg st = some st1 ∧
      st1.sr.m_translations = [] ∧
      st1.sr.m_tailFallbackJumps = [] ∧
      st1.sr.m_topTranslation = 0 ∧
      st1.sr.m_anchorTranslation = st.sr.m_anchorTranslation ∧
      st1.sr.m_incomingBranches = st.sr.m_incomingBranches ∧
      st1.sr.m_dbgBranchGuardSrc = st.sr.m_dbgBranchGuardSrc ∧
      (st.sr.hasDebuggerGuard = false →
        ∀ b ∈ st1.sr.m_incomingBranches,
          b.target specBackEnd st1.code = st1.sr.m_anchorTranslation) ∧
      (st.sr.hasDebuggerGuard = true →
        specBackEnd.jmpTarget st1.code st.sr.m_dbgBranchGuardSrc = st1.sr.m_anchorTranslation ∧
        ∀ a, a ≠ st.sr.m_dbgBranchGuardSrc → st1.code a = st.code a) := by
  refine ⟨_, replaceOldTranslations_eq mcg st hmode, rfl, rfl, rfl, rfl, rfl, rfl, ?_, ?_⟩
  · intro hg b hb
    simp only [patchIncomingBranches_no_guard _ _ _ _ hg]
    exact patchAll_target_of_mem _ _ _ b hb
  · intro hg
    simp only [patchIncomingBranches_guard _ _ _ hg, specBackEnd_jmpTarget, store_apply]
    refine ⟨by simp, ?_⟩
    intro a ha
    simp [ha]

/-- C3 (amended) at two concrete inputs: invalidating `unresolvedEx`, which
has no guard, sends both incoming branches to the anchor `5`; invalidating
`guardedEx` sends the guard branch at `210` to the anchor and writes nothing
else. -/
theorem replaceOldTranslations_spec_witness :
    (∃ st1, SrcRec.replaceOldTranslations specBackEnd mcgEx unresolvedEx = some st1 ∧
      st1.sr.m_translations = [] ∧
      st1.sr.m_tailFallbackJumps = [] ∧
      st1.sr.m_topTranslation = 0 ∧
      st1.sr.m_anchorTranslation = 5 ∧
      st1.sr.m_incomingBranches = unresolvedEx.sr.m_incomingBranches ∧
      ∀ b ∈ st1.sr.m_incomingBranches,
        b.target specBackEnd st1.code = st1.sr.m_anchorTranslation) ∧
    (∃ st1, SrcRec.replaceOldTranslations specBackEnd mcgEx guardedEx = some st1 ∧
      st1.sr.m_anchorTranslation = 5 ∧
      specBackEnd.jmpTarget st1.code 210 = st1.sr.m_anchorTranslation ∧
      ∀ a, a ≠ 210 → st1.code a = guardedEx.code a) := by
  obtain ⟨s1, hs1, h1, h2, h3, h4, h5, _, h7, _⟩ :=
    replaceOldTranslations_spec mcgEx unresolvedEx (Or.inl rfl)
  obtain ⟨s2, hs2, _, _, _, k4, _, _, _, k8⟩ :=
    replaceOldTranslations_spec mcgEx guardedEx (Or.inl rfl)
  exact ⟨⟨s1, hs1, h1, h2, h3, h4, h5, h7 rfl⟩, ⟨s2, hs2, k4, (k8 rfl).1, (k8 rfl).2⟩⟩

/-! ## C4: installing the debugger guard -/

/-- What `addDebuggerGuard` computes when no guard is installed yet. -/
theorem addDebuggerGuard_eq (st : State) (g gb : TCA) (hnone : st.sr.m_dbgBranchGuardSrc = 0) :
    SrcRec.addDebuggerGuard specBackEnd st g gb =
      some { sr := { m_anchorTranslation := st.sr.m_anchorTranslation
                     m_topTranslation := g
                     m_translations := st.sr.m_translations
                     m_tailFallbackJumps := st.sr.m_tailFallbackJumps
                     m_incomingBranches := st.sr.m_incomingBranches
                     m_dbgBranchGuardSrc := gb }
             code := patchAll specBackEnd st.sr.m_incomingBranches st.code g } := by
  unfold SrcRec.addDebuggerGuard
  have hg : st.sr.hasDebuggerGuard = false := by simp [SrcRec.hasDebuggerGuard, hnone]
  rw [if_pos hnone, patchIncomingBranches_no_guard _ _ _ _ hg]

/-- C4, as stated, fails for a null guard-branch address:
`addDebuggerGuard(200, nullptr)` on `unresolvedEx` completes, patches the
incoming branches to `200` and sets `m_topTranslation` to `200`, but the guard
is not reported active afterwards. -/
theorem addDebuggerGuard_null_branch_counterexample :
    (SrcRec.addDebuggerGuard specBackEnd unresolvedEx 200 0).map
        (fun st1 => (st1.sr.m_topTranslation, st1.sr.m_dbgBranchGuardSrc,
                     st1.sr.hasDebuggerGuard))
      = some (200, 0, false) := by
  decide

/-- C4, amended. For every record with no debugger guard installed, every
address `g` and every non-null address `gb`: `addDebuggerGuard(g, gb)`
completes; afterwards every branch that was in the incoming list has
`target() == g`, `m_topTranslation` is `g`, the guard is reported active with
guard-branch address `gb`, and the translations, the tail jumps, the anchor
and the incoming list are unchanged. -/
theorem addDebuggerGuard_spec (st : State) (g gb : TCA)
    (hnone : st.sr.m_dbgBranchGuardSrc = 0) (hgb : gb ≠ 0) :
    ∃ st1, SrcRec.addDebuggerGuard specBackEnd st g gb = some st1 ∧
      (∀ b ∈ st.sr.m_incomingBranches, b.target specBackEnd st1.code = g) ∧
      st1.sr.m_topTranslation = g ∧
      st1.sr.hasDebuggerGuard = true ∧
      st1.sr.m_dbgBranchGuardSrc = gb ∧
      st1.sr.m_translations = st.sr.m_translations ∧
      st1.sr.m_tailFallbackJumps = st.sr.m_tailFallbackJumps ∧
      st1.sr.m_anchorTranslation = st.sr.m_anchorTranslation ∧
      st1.sr.m_incomingBranches = st.sr.m_incomingBranches := by
  refine ⟨_, addDebuggerGuard_eq st g gb hnone, ?_, rfl, ?_, rfl, rfl, rfl, rfl, rfl⟩
  · intro b hb
    exact patchAll_target_of_mem _ _ _ b hb
  · simp [SrcRec.hasDebuggerGuard, hgb]

/-- C4 (amended) at a concrete input: the guard `200` with branch `210`. -/
theorem addDebuggerGuard_spec_witness :
    ∃ st1, SrcRec.addDebuggerGuard specBackEnd unresolvedEx 200 210 = some st1 ∧
      (∀ b ∈ unresolvedEx.sr.m_incomingBranches, b.target specBackEnd st1.code = 200) ∧
      st1.sr.m_topTranslation = 200 ∧
      st1.sr.hasDebuggerGuard = true ∧
      st1.sr.m_dbgBranchGuardSrc = 210 ∧
      st1.sr.m_translations = unresolvedEx.sr.m_translations ∧
      st1.sr.m_tailFallbackJumps = unresolvedEx.sr.m_tailFallbackJumps ∧
      st1.sr.m_anchorTranslation = unresolvedEx.sr.m_anchorTranslation ∧
      st1.sr.m_incomingBranches = unresolvedEx.sr.m_incomingBranches :=
  addDebuggerGuard_spec unresolvedEx 200 210 rfl (by decide)

/-! ## C5: a new translation behind an installed guard -/

/-- C5, as stated, fails: on `resolvedEx`, `addDebuggerGuard(200, 210)` and
then `newTranslation(300, [])` leave the incoming jump on the guard `200`, but
the jump at the guard branch address `210` still goes to `100`; it is not
patched to the new translation `300`, because the record is resolved. -/
theorem newTranslation_after_guard_counterexample :
    ((SrcRec.addDebuggerGuard specBackEnd resolvedEx 200 210).bind
        (fun st1 => SrcRec.newTranslation specBackEnd mcgEx st1 300 [])).map
        (fun r => (r.1.sr.m_incomingBranches.map (fun b => b.target specBackEnd r.1.code),
                   specBackEnd.jmpTarget r.1.code 210,
                   r.1.sr.m_topTranslation))
      = some ([200], 100, 200) := by
  decide

/-- C5, amended. For every record without a guard and all addresses `g`, `gb`,
`t`: `addDebuggerGuard(g, gb)` and then `newTranslation(t, tail)` complete
(given room for one more translation). The second call patches the old tail
fallback jumps to `t` (afterwards every one of them has `target() == t`),
replaces the list of tail fallback jumps by `tail`, leaves the list of incoming
branches as it was, and besides the tail jumps it patches
* nothing when `g` is non-null: `m_topTranslation` stays `g`, no location other
  than a tail jump changes (so the jump at `gb` is not patched), and every
  incoming branch that is not at a tail jump still has `target() == g`;
* only the guard branch when `g` is null and `gb` is non-null (the record is
  unresolved): `m_topTranslation` becomes `t`, the jump at `gb` goes to `t`, no
  location other than `gb` and the tail jumps changes, and every incoming
  branch that is at neither still has `target() == g`. -/
theorem newTranslation_after_guard (mcg : MCGenerator) (st : State) (g gb t : TCA)
    (tail : List IncomingBranch)
    (hnone : st.sr.m_dbgBranchGuardSrc = 0)
    (hlimit : st.sr.m_translations.length ≤ mcg.options.EvalJitMaxTranslations) :
    ∃ st1 st2 out,
      SrcRec.addDebuggerGuard specBackEnd st g gb = some st1 ∧
      SrcRec.newTranslation specBackEnd mcg st1 t tail = some (st2, out) ∧
      (∀ b ∈ st.sr.m_tailFallbackJumps, b.target specBackEnd st2.code = t) ∧
      st2.sr.m_tailFallbackJumps = tail ∧
      st2.sr.m_incomingBranches = st.sr.m_incomingBranches ∧
      (g ≠ 0 →
        st2.sr.m_topTranslation = g ∧
        (∀ a, a ∉ st.sr.m_tailFallbackJumps.map IncomingBranch.toSmash →
          st2.code a = st1.code a) ∧
        (∀ b ∈ st2.sr.m_incomingBranches,
          b.toSmash ∉ st.sr.m_tailFallbackJumps.map IncomingBranch.toSmash →
          b.target specBackEnd st2.code = g)) ∧
      (g = 0 → gb ≠ 0 →
        st2.sr.m_topTranslation = t ∧
        specBackEnd.jmpTarget st2.code gb = t ∧
        (∀ a, a ∉ st.sr.m_tailFallbackJumps.map IncomingBranch.toSmash → a ≠ gb →
          st2.code a = st1.code a) ∧
        (∀ b ∈ st2.sr.m_incomingBranches,
          b.toSmash ∉ st.sr.m_tailFallbackJumps.map IncomingBranch.toSmash →
          b.toSmash ≠ gb → b.target specBackEnd st2.code = g)) := by
  refine ⟨_, _, _, addDebuggerGuard_eq st g gb hnone, newTranslation_eq mcg _ t tail hlimit,
    ?_, rfl, rfl, ?_, ?_⟩
  · intro b hb
    exact patchAll_target_of_mem _ _ t b hb
  · intro hg
    refine ⟨by simp [hg], ?_, ?_⟩
    · intro a ha
      simp only [hg, if_false]
      exact patchAll_of_not_mem _ _ _ _ ha
    · intro b hb ha
      have hb1 : b ∈ st.sr.m_incomingBranches := hb
      have h := patchAll_target_of_mem _ st.code g b hb1
      rw [target_eq_read] at h ⊢
      simp only [hg, if_false]
      rw [patchAll_of_not_mem _ _ _ _ ha]
      exact h
  · intro hg hgb
    subst hg
    have hguard : ({ m_anchorTranslation := st.sr.m_anchorTranslation
                     m_topTranslation := 0
                     m_translations := st.sr.m_translations
                     m_tailFallbackJumps := st.sr.m_tailFallbackJumps
                     m_incomingBranches := st.sr.m_incomingBranches
                     m_dbgBranchGuardSrc := gb } : SrcRec).hasDebuggerGuard = true := by
      simp [SrcRec.hasDebuggerGuard, hgb]
    refine ⟨by simp, ?_, ?_, ?_⟩
    · simp only [specBackEnd_jmpTarget, if_true]
      apply patchAll_keeps
      rw [patchIncomingBranches_guard _ _ _ hguard, store_apply]
      simp
    · intro a ha hne
      simp only [if_true]
      rw [patchAll_of_not_mem _ _ _ _ ha, patchIncomingBranches_guard _ _ _ hguard, store_apply]
      simp [hne]
    · intro b hb ha hne
      have hb1 : b ∈ st.sr.m_incomingBranches := hb
      have h := patchAll_target_of_mem _ st.code 0 b hb1
      rw [target_eq_read] at h ⊢
      simp only [if_true]
      rw [patchAll_of_not_mem _ _ _ _ ha, patchIncomingBranches_guard _ _ _ hguard, store_apply]
      simp only [hne, if_false]
      exact h

/-- C5 (amended) at two concrete inputs. On `resolvedEx`, after
`addDebuggerGuard(200, 210)` the call `newTranslation(300, [])` keeps the top
translation `200`, writes nothing, and the incoming jump stays on `200`. On
`unresolvedEx`, after `addDebuggerGuard(nullptr, 210)` the record is still
unresolved and `newTranslation(300, [])` sends the guard branch at `210` and
the old tail jump at `30` to `300`, and leaves the record without tail jumps. -/
theorem newTranslation_after_guard_witness :
    (∃ st1 st2 out,
      SrcRec.addDebuggerGuard specBackEnd resolvedEx 200 210 = some st1 ∧
      SrcRec.newTranslation specBackEnd mcgEx st1 300 [] = some (st2, out) ∧
      st2.sr.m_topTranslation = 200 ∧
      specBackEnd.jmpTarget st2.code 210 = specBackEnd.jmpTarget st1.code 210 ∧
      ∀ b ∈ st2.sr.m_incomingBranches, b.target specBackEnd st2.code = 200) ∧
    (∃ st1 st2 out,
      SrcRec.addDebuggerGuard specBackEnd unresolvedEx 0 210 = some st1 ∧
      SrcRec.newTranslation specBackEnd mcgEx st1 300 [] = some (st2, out) ∧
      st2.sr.m_topTranslation = 300 ∧
      specBackEnd.jmpTarget st2.code 210 = 300 ∧
      specBackEnd.jccTarget st2.code 30 = 300 ∧
      st2.sr.m_tailFallbackJumps = []) := by
  obtain ⟨s1, s2, o, h1, h2, _, _, _, h3, _⟩ :=
    newTranslation_after_guard mcgEx resolvedEx 200 210 300 [] rfl (by decide)
  obtain ⟨u1, u2, p, k1, k2, ktail, kswap, _, _, k4⟩ :=
    newTranslation_after_guard mcgEx unresolvedEx 0 210 300 [] rfl (by decide)
  have h3a := h3 (by decide)
  have k4a := k4 rfl (by decide)
  refine ⟨⟨s1, s2, o, h1, h2, h3a.1, h3a.2.1 210 (by decide), ?_⟩,
    ⟨u1, u2, p, k1, k2, k4a.1, k4a.2.1,
      ktail { type := Tag.JCC, toSmash := 30 } (by simp [unresolvedEx]), kswap⟩⟩
  intro b hb
  exact h3a.2.2 b hb (by simp [resolvedEx])

/-- Under the encoder contract, a branch read right after it was patched gives
the patched target. -/
theorem target_patch_of_contract (be : BackEnd)
    (hjmp : ∀ code at_ dest, be.jmpTarget (be.smashJmp code at_ dest) at_ = dest)
    (hjcc : ∀ code at_ dest, be.jccTarget (be.smashJcc code at_ dest) at_ = dest)
    (b : IncomingBranch) (code : CodeCache) (dest : TCA) :
    b.target be (b.patch be code dest) = dest := by
  unfold IncomingBranch.target IncomingBranch.patch
  cases h : b.type
  · exact hjmp code b.toSmash dest
  · exact hjcc code b.toSmash dest
  · simp [store_apply]

/-! ## C6: patch and target round-trip -/

/-- The encoder contract holds of the modelled back end: a jump target read
after a smash at the same address is the smashed target. -/
theorem backEnd_contract (code : CodeCache) (at_ dest : TCA) :
    specBackEnd.jmpTarget (specBackEnd.smashJmp code at_ dest) at_ = dest ∧
    specBackEnd.jccTarget (specBackEnd.smashJcc code at_ dest) at_ = dest := by
  simp [specBackEnd_jmpTarget, specBackEnd_smashJmp, specBackEnd_jccTarget,
    specBackEnd_smashJcc, store_apply]

/-- C6. For every back end that meets the encoder contract (a jump target, or
a conditional-jump target, read after a smash at the same address is the
smashed target), every branch `b` of any kind, every code cache and every
target `T`: `b.target()` read right after `b.patch(T)` is `T`. The patch
assigns nothing to the tagged pointer of `b`: it yields a new code cache only,
and the branch read afterwards is the same `b`, with the same kind and smash
address. -/
theorem patch_target_roundtrip (be : BackEnd)
    (hjmp : ∀ code at_ dest, be.jmpTarget (be.smashJmp code at_ dest) at_ = dest)
    (hjcc : ∀ code at_ dest, be.jccTarget (be.smashJcc code at_ dest) at_ = dest)
    (b : IncomingBranch) (code : CodeCache) (T : TCA) :
    b.target be (b.patch be code T) = T := by
  cases b with
  | mk ty s =>
    cases ty
    · exact hjmp code s T
    · exact hjcc code s T
    · simp [IncomingBranch.target, IncomingBranch.patch, store_apply]

/-- C6 at a concrete input: with the modelled back end, the conditional jump
at `30` patched to `300` reads `300`. -/
theorem patch_target_roundtrip_witness :
    ({ type := Tag.JCC, toSmash := 30 } : IncomingBranch).target specBackEnd
        (({ type := Tag.JCC, toSmash := 30 } : IncomingBranch).patch specBackEnd codeEx 300)
      = 300 :=
  patch_target_roundtrip specBackEnd (fun code at_ dest => (backEnd_contract code at_ dest).1)
    (fun code at_ dest => (backEnd_contract code at_ dest).2)
    { type := Tag.JCC, toSmash := 30 } codeEx 300

/-! ## C7: registering an incoming branch -/

/-- What `chainFrom` computes for a branch that passes its assertion. -/
theorem chainFrom_eq (mcg : MCGenerator) (st : State) (br : IncomingBranch)
    (hacc : br.type = Tag.ADDR ∨ mcg.isValidCodeAddress br.toSmash = true) :
    SrcRec.chainFrom specBackEnd mcg st br =
      some { sr := { m_anchorTranslation := st.sr.m_anchorTranslation
                     m_topTranslation := st.sr.m_topTranslation
                     m_translations := st.sr.m_translations
                     m_tailFallbackJumps := st.sr.m_tailFallbackJumps
                     m_incomingBranches := st.sr.m_incomingBranches ++ [br]
                     m_dbgBranchGuardSrc := st.sr.m_dbgBranchGuardSrc }
             code := st.code.store br.toSmash st.sr.m_topTranslation } := by
  unfold SrcRec.chainFrom
  rw [if_pos hacc]
  simp only [patch_eq_store, SrcRec.getTopTranslation]

/-- C7, as stated, fails on an unresolved record: `chainFrom` of the jump at
`10` on the fresh record with anchor `5` appends the branch, but patches it to
the null `m_topTranslation`, not to the anchor. -/
theorem chainFrom_unresolved_counterexample :
    (SrcRec.chainFrom specBackEnd mcgEx { sr := SrcRec.fresh 5, code := codeEx }
        { type := Tag.JMP, toSmash := 10 }).map
        (fun st1 => (st1.sr.m_incomingBranches, st1.sr.m_topTranslation,
                     st1.sr.m_anchorTranslation,
                     ({ type := Tag.JMP, toSmash := 10 } : IncomingBranch).target specBackEnd
                       st1.code))
      = some ([{ type := Tag.JMP, toSmash := 10 }], 0, 5, 0) := by
  decide

/-- C7, amended. For every back end that meets the encoder contract, every
record and every branch `b` that `chainFrom` accepts (an address slot, or a
branch at a valid code address): `chainFrom(b)` completes; afterwards `b` is
the last element of the incoming list behind the unchanged earlier elements,
and `b.target()` is the current `m_topTranslation`, whether that is a
translation or null; no other field of the record changes. -/
theorem chainFrom_spec (be : BackEnd)
    (hjmp : ∀ code at_ dest, be.jmpTarget (be.smashJmp code at_ dest) at_ = dest)
    (hjcc : ∀ code at_ dest, be.jccTarget (be.smashJcc code at_ dest) at_ = dest)
    (mcg : MCGenerator) (st : State) (b : IncomingBranch)
    (hacc : b.type = Tag.ADDR ∨ mcg.isValidCodeAddress b.toSmash = true) :
    ∃ st1, SrcRec.chainFrom be mcg st b = some st1 ∧
      st1.sr.m_incomingBranches = st.sr.m_incomingBranches ++ [b] ∧
      b.target be st1.code = st1.sr.m_topTranslation ∧
      st1.sr.m_topTranslation = st.sr.m_topTranslation ∧
      st1.sr.m_anchorTranslation = st.sr.m_anchorTranslation ∧
      st1.sr.m_translations = st.sr.m_translations ∧
      st1.sr.m_tailFallbackJumps = st.sr.m_tailFallbackJumps ∧
      st1.sr.m_dbgBranchGuardSrc = st.sr.m_dbgBranchGuardSrc := by
  refine ⟨{ sr := { st.sr with m_incomingBranches := st.sr.m_incomingBranches ++ [b] }
            code := b.patch be st.code st.sr.getTopTranslation }, ?_, rfl, ?_, rfl, rfl, rfl,
    rfl, rfl⟩
  · unfold SrcRec.chainFrom
    rw [if_pos hacc]
  · exact target_patch_of_contract be hjmp hjcc b st.code st.sr.m_topTranslation

/-- C7 (amended) at a concrete input: chaining the conditional jump at `30`
into `resolvedEx` with the modelled back end. -/
theorem chainFrom_spec_witness :
    ∃ st1, SrcRec.chainFrom specBackEnd mcgEx resolvedEx { type := Tag.JCC, toSmash := 30 }
        = some st1 ∧
      st1.sr.m_incomingBranches
        = resolvedEx.sr.m_incomingBranches ++ [{ type := Tag.JCC, toSmash := 30 }] ∧
      ({ type := Tag.JCC, toSmash := 30 } : IncomingBranch).target specBackEnd st1.code
        = st1.sr.m_topTranslation ∧
      st1.sr.m_topTranslation = resolvedEx.sr.m_topTranslation ∧
      st1.sr.m_anchorTranslation = resolvedEx.sr.m_anchorTranslation ∧
      st1.sr.m_translations = resolvedEx.sr.m_translations ∧
      st1.sr.m_tailFallbackJumps = resolvedEx.sr.m_tailFallbackJumps ∧
      st1.sr.m_dbgBranchGuardSrc = resolvedEx.sr.m_dbgBranchGuardSrc :=
  chainFrom_spec specBackEnd (fun code at_ dest => (backEnd_contract code at_ dest).1)
    (fun code at_ dest => (backEnd_contract code at_ dest).2)
    mcgEx resolvedEx { type := Tag.JCC, toSmash := 30 } (Or.inr rfl)

/-! ## C8: the two-translation scenario -/

/-- C8, as stated, fails at its last step: on the fresh record with anchor `5`
and the incoming jump `b1` at `10`, `newTranslation(100, [])` and then
`newTranslation(300, [b2])` with `b2` the jump at `20` give the translations
`[100, 300]` and the tail jumps `[b2]`, and `b1` goes to `100`, but `b2` still
goes to the anchor `5` it went to before, not to `300`. -/
theorem scenario_counterexample :
    (((SrcRec.chainFrom specBackEnd mcgEx { sr := SrcRec.fresh 5, code := scenarioCodeEx }
          { type := Tag.JMP, toSmash := 10 }).bind
        (fun s1 => SrcRec.newTranslation specBackEnd mcgEx s1 100 [])).bind
        (fun r2 => SrcRec.newTranslation specBackEnd mcgEx r2.1 300
                     [{ type := Tag.JMP, toSmash := 20 }])).map
        (fun r3 => (({ type := Tag.JMP, toSmash := 20 } : IncomingBranch).target specBackEnd
                      r3.1.code,
                    r3.1.sr.m_translations,
                    r3.1.sr.m_tailFallbackJumps,
                    ({ type := Tag.JMP, toSmash := 10 } : IncomingBranch).target specBackEnd
                      r3.1.code))
      = some (5, [100, 300], [{ type := Tag.JMP, toSmash := 20 }], 100) := by
  decide

/-- C8, amended. For all addresses `A`, `T1`, `T2`, every code cache and all
branches `b1` (accepted by `chainFrom`) and `b2` at distinct smash addresses,
with room for at least one translation under the limit: on the fresh record
with anchor `A`, `chainFrom(b1)` and `newTranslation(T1, [])` complete and
yield `b1.target() == T1` and `translations == [T1]`; then
`newTranslation(T2, [b2])` completes and yields `translations == [T1, T2]` and
`tailFallbackJumps == [b2]`, while `b2` is not patched: `b2.target()` is what
it was before the scenario started. When `T1` is non-null, `b1` still goes to
`T1` and `T1` is still the top translation. -/
theorem scenario_spec (mcg : MCGenerator) (code : CodeCache) (A T1 T2 : TCA)
    (b1 b2 : IncomingBranch)
    (hacc : b1.type = Tag.ADDR ∨ mcg.isValidCodeAddress b1.toSmash = true)
    (hroom : 1 ≤ mcg.options.EvalJitMaxTranslations)
    (hdistinct : b1.toSmash ≠ b2.toSmash) :
    ∃ s1 s2 out2 s3 out3,
      SrcRec.chainFrom specBackEnd mcg { sr := SrcRec.fresh A, code := code } b1 = some s1 ∧
      SrcRec.newTranslation specBackEnd mcg s1 T1 [] = some (s2, out2) ∧
      b1.target specBackEnd s2.code = T1 ∧
      s2.sr.m_translations = [T1] ∧
      SrcRec.newTranslation specBackEnd mcg s2 T2 [b2] = some (s3, out3) ∧
      s3.sr.m_translations = [T1, T2] ∧
      s3.sr.m_tailFallbackJumps = [b2] ∧
      b2.target specBackEnd s3.code = b2.target specBackEnd code ∧
      (T1 ≠ 0 → b1.target specBackEnd s3.code = T1 ∧ s3.sr.m_topTranslation = T1) := by
  have h1 : SrcRec.chainFrom specBackEnd mcg { sr := SrcRec.fresh A, code := code } b1 =
      some { sr := { m_anchorTranslation := A
                     m_topTranslation := 0
                     m_translations := []
                     m_tailFallbackJumps := []
                     m_incomingBranches := [b1]
                     m_dbgBranchGuardSrc := 0 }
             code := code.store b1.toSmash 0 } := by
    rw [chainFrom_eq mcg _ b1 hacc]
    rfl
  have h2 : SrcRec.newTranslation specBackEnd mcg
      { sr := { m_anchorTranslation := A
                m_topTranslation := 0
                m_translations := []
                m_tailFallbackJumps := []
                m_incomingBranches := [b1]
                m_dbgBranchGuardSrc := 0 }
        code := code.store b1.toSmash 0 } T1 [] =
      some ({ sr := { m_anchorTranslation := A
                      m_topTranslation := T1
                      m_translations := [T1]
                      m_tailFallbackJumps := []
                      m_incomingBranches := [b1]
                      m_dbgBranchGuardSrc := 0 }
              code := patchAll specBackEnd [b1] (code.store b1.toSmash 0) T1 }, []) := by
    rw [newTranslation_eq mcg _ T1 [] (Nat.zero_le _)]
    simp [SrcRec.patchIncomingBranches, SrcRec.hasDebuggerGuard, patchAll_nil]
  have h3 : SrcRec.newTranslation specBackEnd mcg
      { sr := { m_anchorTranslation := A
                m_topTranslation := T1
                m_translations := [T1]
                m_tailFallbackJumps := []
                m_incomingBranches := [b1]
                m_dbgBranchGuardSrc := 0 }
        code := patchAll specBackEnd [b1] (code.store b1.toSmash 0) T1 } T2 [b2] =
      some ({ sr := { m_anchorTranslation := A
                      m_topTranslation := if T1 = 0 then T2 else T1
                      m_translations := [T1, T2]
                      m_tailFallbackJumps := [b2]
                      m_incomingBranches := [b1]
                      m_dbgBranchGuardSrc := 0 }
              code := if T1 = 0 then
                        patchAll specBackEnd [b1]
                          (patchAll specBackEnd [b1] (code.store b1.toSmash 0) T1) T2
                      else patchAll specBackEnd [b1] (code.store b1.toSmash 0) T1 }, []) := by
    rw [newTranslation_eq mcg _ T2 [b2] (by simpa using hroom)]
    simp [SrcRec.patchIncomingBranches, SrcRec.hasDebuggerGuard, patchAll_nil]
  have hb1 : (patchAll specBackEnd [b1] (code.store b1.toSmash 0) T1) b1.toSmash = T1 := by
    rw [patchAll_apply]; simp
  have hb2 : (patchAll specBackEnd [b1] (code.store b1.toSmash 0) T1) b2.toSmash
      = code b2.toSmash := by
    rw [patchAll_apply, store_apply]; simp [Ne.symm hdistinct]
  refine ⟨_, _, _, _, _, h1, h2, ?_, rfl, h3, rfl, rfl, ?_, ?_⟩
  · rw [target_eq_read]
    exact hb1
  · rw [target_eq_read, target_eq_read]
    by_cases hT : T1 = 0
    · subst hT
      simp only [if_true]
      rw [patchAll_apply]
      simp only [List.map_cons, List.map_nil, List.mem_singleton, Ne.symm hdistinct, if_false]
      exact hb2
    · simp only [hT, if_false]
      exact hb2
  · intro hT
    refine ⟨?_, by simp [hT]⟩
    rw [target_eq_read]
    simp only [hT, if_false]
    exact hb1

/-- C8 (amended) at a concrete input: anchor `5`, translations `100`, `300`. -/
theorem scenario_spec_witness :
    ∃ s1 s2 out2 s3 out3,
      SrcRec.chainFrom specBackEnd mcgEx { sr := SrcRec.fresh 5, code := scenarioCodeEx }
        { type := Tag.JMP, toSmash := 10 } = some s1 ∧
      SrcRec.newTranslation specBackEnd mcgEx s1 100 [] = some (s2, out2) ∧
      ({ type := Tag.JMP, toSmash := 10 } : IncomingBranch).target specBackEnd s2.code = 100 ∧
      s2.sr.m_translations = [100] ∧
      SrcRec.newTranslation specBackEnd mcgEx s2 300 [{ type := Tag.JMP, toSmash := 20 }]
        = some (s3, out3) ∧
      s3.sr.m_translations = [100, 300] ∧
      s3.sr.m_tailFallbackJumps = [{ type := Tag.JMP, toSmash := 20 }] ∧
      ({ type := Tag.JMP, toSmash := 20 } : IncomingBranch).target specBackEnd s3.code
        = ({ type := Tag.JMP, toSmash := 20 } : IncomingBranch).target specBackEnd
            scenarioCodeEx ∧
      ((100 : TCA) ≠ 0 →
        ({ type := Tag.JMP, toSmash := 10 } : IncomingBranch).target specBackEnd s3.code = 100 ∧
        s3.sr.m_topTranslation = 100) :=
  scenario_spec mcgEx scenarioCodeEx 5 100 300 { type := Tag.JMP, toSmash := 10 }
    { type := Tag.JMP, toSmash := 20 } (Or.inr rfl) (by decide) (by decide)

/-! ## C9: relocating one branch -/

theorem relocate_fst (be : BackEnd) (b : IncomingBranch) (rel : RelocationInfo)
    (code : CodeCache) :
    (b.relocate be rel code).1 = { type := b.type, toSmash := rel.adjust b.toSmash } := by
  unfold IncomingBranch.relocate RelocationInfo.adjust
  by_cases hs : rel.adjustedAddressAfter b.toSmash = 0 <;>
    by_cases ht : rel.adjustedAddressAfter (b.target be code) = 0 <;>
    simp [hs, ht]

theorem relocate_snd (be : BackEnd) (b : IncomingBranch) (rel : RelocationInfo)
    (code : CodeCache) :
    (b.relocate be rel code).2 =
      if rel.adjustedAddressAfter (b.target be code) ≠ 0 then
        (b.relocate be rel code).1.patch be code (rel.adjustedAddressAfter (b.target be code))
      else code := by
  unfold IncomingBranch.relocate
  by_cases ht : rel.adjustedAddressAfter (b.target be code) = 0
  · simp [ht]
  · simp [ht]

/-- C9. For every back end that meets the encoder contract, every branch `b`
(smash address `s`, target `T` read at `s` in the code cache as it stands),
every relocation map and every code cache: `b.relocate(rel)` keeps the kind of
`b`; its smash address becomes the adjusted address of `s` when `s` moved and
stays `s` otherwise; when `T` moved to a non-null `T1`, the resulting code
cache is that of `patch(T1)` applied to the branch at its resulting smash
address, so the relocated branch has `target() == T1`; when the map reports
`T` as not moved, the code cache is unchanged. -/
theorem incomingBranch_relocate_spec (be : BackEnd)
    (hjmp : ∀ code at_ dest, be.jmpTarget (be.smashJmp code at_ dest) at_ = dest)
    (hjcc : ∀ code at_ dest, be.jccTarget (be.smashJcc code at_ dest) at_ = dest)
    (b : IncomingBranch) (rel : RelocationInfo) (code : CodeCache) :
    (b.relocate be rel code).1.type = b.type ∧
    (b.relocate be rel code).1.toSmash =
      (if rel.adjustedAddressAfter b.toSmash ≠ 0 then rel.adjustedAddressAfter b.toSmash
       else b.toSmash) ∧
    (rel.adjustedAddressAfter (b.target be code) ≠ 0 →
      (b.relocate be rel code).2 =
        (b.relocate be rel code).1.patch be code (rel.adjustedAddressAfter (b.target be code)) ∧
      (b.relocate be rel code).1.target be (b.relocate be rel code).2 =
        rel.adjustedAddressAfter (b.target be code)) ∧
    (rel.adjustedAddressAfter (b.target be code) = 0 → (b.relocate be rel code).2 = code) := by
  refine ⟨by rw [relocate_fst], by rw [relocate_fst]; rfl, ?_, ?_⟩
  · intro ht
    have h2 := relocate_snd be b rel code
    rw [if_pos ht] at h2
    refine ⟨h2, ?_⟩
    rw [h2]
    exact target_patch_of_contract be hjmp hjcc _ code _
  · intro ht
    rw [relocate_snd, if_neg (not_not.mpr ht)]

/-- C9 at a concrete input: with the modelled back end and `relEx`, the jump at
`10` that goes to `100` becomes the jump at `1010` that goes to `1100`. -/
theorem incomingBranch_relocate_spec_witness :
    (({ type := Tag.JMP, toSmash := 10 } : IncomingBranch).relocate specBackEnd relEx
        resolvedCodeEx).1 = { type := Tag.JMP, toSmash := 1010 } ∧
    ({ type := Tag.JMP, toSmash := 1010 } : IncomingBranch).target specBackEnd
      (({ type := Tag.JMP, toSmash := 10 } : IncomingBranch).relocate specBackEnd relEx
        resolvedCodeEx).2 = 1100 := by
  have h := incomingBranch_relocate_spec specBackEnd
    (fun code at_ dest => (backEnd_contract code at_ dest).1)
    (fun code at_ dest => (backEnd_contract code at_ dest).2)
    { type := Tag.JMP, toSmash := 10 } relEx resolvedCodeEx
  have h1 : (({ type := Tag.JMP, toSmash := 10 } : IncomingBranch).relocate specBackEnd
      relEx resolvedCodeEx).1 = { type := Tag.JMP, toSmash := 1010 } := by decide
  refine ⟨h1, ?_⟩
  have h2 := (h.2.2.1 (by decide)).2
  rw [h1] at h2
  exact h2

/-! ## C10: relocating a record -/

theorem relocateAll_fst (be : BackEnd) (rel : RelocationInfo) (bs : List IncomingBranch)
    (code : CodeCache) :
    (relocateAll be rel bs code).1 =
      bs.map (fun b => ({ type := b.type, toSmash := rel.adjust b.toSmash } : IncomingBranch)) := by
  induction bs generalizing code with
  | nil => rfl
  | cons b bs ih =>
    simp only [relocateAll, List.map_cons, relocate_fst, ih]

/-- C10. For every back end, record, code cache and relocation map, with `adjust a`
the new address of `a` when the map moves `a` and `a` itself otherwise: after
`SrcRec::relocate(rel)` the anchor and the top translation are the adjusted old
ones, the translations are the old ones adjusted elementwise (same length and
order), the tail jumps and the incoming branches are the old lists with every
branch replaced by the result of `IncomingBranch::relocate` (same length,
order and kinds, smash addresses adjusted), and the guard branch address is
exactly what it was, also when the map moves it; the code cache is the one
left by relocating the tail jumps and then the incoming branches in order. -/
theorem srcRec_relocate_spec (be : BackEnd) (rel : RelocationInfo) (st : State) :
    (SrcRec.relocate be rel st).sr.m_anchorTranslation = rel.adjust st.sr.m_anchorTranslation ∧
    (SrcRec.relocate be rel st).sr.m_topTranslation = rel.adjust st.sr.m_topTranslation ∧
    (SrcRec.relocate be rel st).sr.m_translations = st.sr.m_translations.map rel.adjust ∧
    (SrcRec.relocate be rel st).sr.m_translations.length = st.sr.m_translations.length ∧
    (SrcRec.relocate be rel st).sr.m_tailFallbackJumps =
      st.sr.m_tailFallbackJumps.map (fun b => (b.relocate be rel st.code).1) ∧
    (SrcRec.relocate be rel st).sr.m_tailFallbackJumps.length = st.sr.m_tailFallbackJumps.length ∧
    (SrcRec.relocate be rel st).sr.m_tailFallbackJumps.map IncomingBranch.type =
      st.sr.m_tailFallbackJumps.map IncomingBranch.type ∧
    (SrcRec.relocate be rel st).sr.m_tailFallbackJumps.map IncomingBranch.toSmash =
      st.sr.m_tailFallbackJumps.map (fun b => rel.adjust b.toSmash) ∧
    (SrcRec.relocate be rel st).sr.m_incomingBranches =
      st.sr.m_incomingBranches.map (fun b => (b.relocate be rel st.code).1) ∧
    (SrcRec.relocate be rel st).sr.m_incomingBranches.length = st.sr.m_incomingBranches.length ∧
    (SrcRec.relocate be rel st).sr.m_incomingBranches.map IncomingBranch.type =
      st.sr.m_incomingBranches.map IncomingBranch.type ∧
    (SrcRec.relocate be rel st).sr.m_incomingBranches.map IncomingBranch.toSmash =
      st.sr.m_incomingBranches.map (fun b => rel.adjust b.toSmash) ∧
    (SrcRec.relocate be rel st).sr.m_dbgBranchGuardSrc = st.sr.m_dbgBranchGuardSrc ∧
    (SrcRec.relocate be rel st).code =
      (relocateAll be rel st.sr.m_incomingBranches
        (relocateAll be rel st.sr.m_tailFallbackJumps st.code).2).2 := by
  have ht : (SrcRec.relocate be rel st).sr.m_tailFallbackJumps =
      st.sr.m_tailFallbackJumps.map (fun b => (b.relocate be rel st.code).1) := by
    simp only [SrcRec.relocate, relocateAll_fst, relocate_fst]
  have hi : (SrcRec.relocate be rel st).sr.m_incomingBranches =
      st.sr.m_incomingBranches.map (fun b => (b.relocate be rel st.code).1) := by
    simp only [SrcRec.relocate, relocateAll_fst, relocate_fst]
  refine ⟨rfl, rfl, rfl, ?_, ht, ?_, ?_, ?_, hi, ?_, ?_, ?_, rfl, rfl⟩
  · simp [SrcRec.relocate]
  · rw [ht, List.length_map]
  · rw [ht, List.map_map]
    exact List.map_congr_left (fun b _ => by simp [relocate_fst])
  · rw [ht, List.map_map]
    exact List.map_congr_left (fun b _ => by simp [relocate_fst])
  · rw [hi, List.length_map]
  · rw [hi, List.map_map]
    exact List.map_congr_left (fun b _ => by simp [relocate_fst])
  · rw [hi, List.map_map]
    exact List.map_congr_left (fun b _ => by simp [relocate_fst])

/-- C10 at a concrete input: relocating `guardedEx` with `relEx`, which moves
`10`, `100` and `210`, adjusts the translation and the incoming jump and keeps
the guard branch address `210`. -/
theorem srcRec_relocate_spec_witness :
    (SrcRec.relocate specBackEnd relEx guardedEx).sr.m_translations = [1100] ∧
    (SrcRec.relocate specBackEnd relEx guardedEx).sr.m_incomingBranches
      = [{ type := Tag.JMP, toSmash := 1010 }] ∧
    relEx.adjustedAddressAfter 210 = 1210 ∧
    (SrcRec.relocate specBackEnd relEx guardedEx).sr.m_dbgBranchGuardSrc = 210 := by
  have h := srcRec_relocate_spec specBackEnd relEx guardedEx
  refine ⟨?_, ?_, rfl, h.2.2.2.2.2.2.2.2.2.2.2.2.1⟩
  · rw [h.2.2.1]
    decide
  · rw [h.2.2.2.2.2.2.2.2.1]
    decide

/-! ## C11: relocation with a map that moves nothing -/

theorem adjust_of_unchanged (rel : RelocationInfo) (h : ∀ a, rel.adjustedAddressAfter a = 0)
    (a : TCA) : rel.adjust a = a := by
  simp [RelocationInfo.adjust, h]

theorem relocate_of_unchanged (be : BackEnd) (rel : RelocationInfo)
    (h : ∀ a, rel.adjustedAddressAfter a = 0) (b : IncomingBranch) (code : CodeCache) :
    b.relocate be rel code = (b, code) := by
  simp [IncomingBranch.relocate, h]

theorem relocateAll_of_unchanged (be : BackEnd) (rel : RelocationInfo)
    (h : ∀ a, rel.adjustedAddressAfter a = 0) (bs : List IncomingBranch) (code : CodeCache) :
    relocateAll be rel bs code = (bs, code) := by
  induction bs generalizing code with
  | nil => rfl
  | cons b bs ih => simp [relocateAll, relocate_of_unchanged be rel h, ih]

/-- C11. For every back end, record and code cache: when the relocation map
reports every address as not moved, `SrcRec::relocate(rel)` returns the state
it was given: the anchor, the top translation, the translations, both branch
lists with their kinds and smash addresses, the guard branch address and every
location of the code cache are what they were. -/
theorem srcRec_relocate_unchanged (be : BackEnd) (rel : RelocationInfo) (st : State)
    (h : ∀ a, rel.adjustedAddressAfter a = 0) :
    SrcRec.relocate be rel st = st := by
  have hmap : st.sr.m_translations.map rel.adjust = st.sr.m_translations := by
    conv_rhs => rw [← List.map_id st.sr.m_translations]
    exact List.map_congr_left (fun a _ => adjust_of_unchanged rel h a)
  simp only [SrcRec.relocate, relocateAll_of_unchanged be rel h, adjust_of_unchanged rel h, hmap]

/-- C11 at a concrete input: relocating `guardedEx` with the map that moves
nothing gives `guardedEx` back. -/
theorem srcRec_relocate_unchanged_witness :
    SrcRec.relocate specBackEnd relNoneEx guardedEx = guardedEx :=
  srcRec_relocate_unchanged specBackEnd relNoneEx guardedEx (fun _ => rfl)

/-! ## C12: relocating twice with the same map -/

theorem relocateAll_append (be : BackEnd) (rel : RelocationInfo) (l1 l2 : List IncomingBranch)
    (code : CodeCache) :
    relocateAll be rel (l1 ++ l2) code =
      ((relocateAll be rel l1 code).1 ++
          (relocateAll be rel l2 (relocateAll be rel l1 code).2).1,
        (relocateAll be rel l2 (relocateAll be rel l1 code).2).2) := by
  induction l1 generalizing code with
  | nil => rfl
  | cons b l1 ih => simp [relocateAll, ih]

/-- A relocation pass over branches that the map neither moves nor retargets
changes nothing. -/
theorem relocateAll_of_settled (be : BackEnd) (rel : RelocationInfo)
    (bs : List IncomingBranch) (code : CodeCache)
    (h : ∀ b ∈ bs, rel.adjustedAddressAfter b.toSmash = 0 ∧
      rel.adjustedAddressAfter (b.target be code) = 0) :
    relocateAll be rel bs code = (bs, code) := by
  induction bs with
  | nil => rfl
  | cons b bs ih =>
    have hb := h b (List.mem_cons_self b bs)
    have hrel : b.relocate be rel code = (b, code) := by
      simp [IncomingBranch.relocate, hb.1, hb.2]
    simp [relocateAll, hrel, ih (fun c hc => h c (List.mem_cons_of_mem b hc))]

theorem adjust_settled (rel : RelocationInfo)
    (hfinal : ∀ a, rel.adjustedAddressAfter a ≠ 0 →
      rel.adjustedAddressAfter (rel.adjustedAddressAfter a) = 0) (a : TCA) :
    rel.adjustedAddressAfter (rel.adjust a) = 0 := by
  unfold RelocationInfo.adjust
  by_cases h : rel.adjustedAddressAfter a = 0
  · simp [h]
  · simp [h, hfinal a h]

theorem adjust_idem (rel : RelocationInfo)
    (hfinal : ∀ a, rel.adjustedAddressAfter a ≠ 0 →
      rel.adjustedAddressAfter (rel.adjustedAddressAfter a) = 0) (a : TCA) :
    rel.adjust (rel.adjust a) = rel.adjust a := by
  have h := adjust_settled rel hfinal a
  generalize rel.adjust a = x at h
  simp [RelocationInfo.adjust, h]

/-- What relocating one branch does to the modelled code cache. -/
theorem relocate_snd_spec (b : IncomingBranch) (rel : RelocationInfo) (code : CodeCache) :
    (b.relocate specBackEnd rel code).2 =
      if rel.adjustedAddressAfter (code b.toSmash) ≠ 0 then
        code.store (rel.adjust b.toSmash) (rel.adjustedAddressAfter (code b.toSmash))
      else code := by
  rw [relocate_snd, relocate_fst, patch_eq_store, target_eq_read]

theorem relocateAll_cons_snd (be : BackEnd) (rel : RelocationInfo) (b : IncomingBranch)
    (bs : List IncomingBranch) (code : CodeCache) :
    (relocateAll be rel (b :: bs) code).2 =
      (relocateAll be rel bs (b.relocate be rel code).2).2 := rfl

/-- One relocated branch leaves settled words settled: a location whose word
the map does not move holds such a word afterwards too. -/
theorem relocate_keeps_settled (rel : RelocationInfo)
    (hfinal : ∀ a, rel.adjustedAddressAfter a ≠ 0 →
      rel.adjustedAddressAfter (rel.adjustedAddressAfter a) = 0)
    (b : IncomingBranch) (code : CodeCache) (a : TCA)
    (ha : rel.adjustedAddressAfter (code a) = 0) :
    rel.adjustedAddressAfter ((b.relocate specBackEnd rel code).2 a) = 0 := by
  rw [relocate_snd_spec]
  by_cases ht : rel.adjustedAddressAfter (code b.toSmash) = 0
  · simp [ht, ha]
  · simp only [ne_eq, ht, not_false_eq_true, if_true, store_apply]
    by_cases hat : a = rel.adjust b.toSmash
    · simp [hat, hfinal _ ht]
    · simp [hat, ha]

theorem relocateAll_keeps_settled (rel : RelocationInfo)
    (hfinal : ∀ a, rel.adjustedAddressAfter a ≠ 0 →
      rel.adjustedAddressAfter (rel.adjustedAddressAfter a) = 0)
    (bs : List IncomingBranch) (code : CodeCache) (a : TCA)
    (ha : rel.adjustedAddressAfter (code a) = 0) :
    rel.adjustedAddressAfter ((relocateAll specBackEnd rel bs code).2 a) = 0 := by
  induction bs generalizing code with
  | nil => exact ha
  | cons b bs ih =>
    rw [relocateAll_cons_snd]
    exact ih _ (relocate_keeps_settled rel hfinal b code a ha)

/-- After a relocation pass, every branch of the list finds at its adjusted
smash address a word that the map does not move, provided that every moved
branch either has a target that the map moves (so that the pass patches it) or
has at its new location such a word to begin with. -/
theorem relocateAll_settles (rel : RelocationInfo)
    (hfinal : ∀ a, rel.adjustedAddressAfter a ≠ 0 →
      rel.adjustedAddressAfter (rel.adjustedAddressAfter a) = 0)
    (bs : List IncomingBranch) (code : CodeCache)
    (hnew : ∀ b ∈ bs, rel.adjustedAddressAfter b.toSmash ≠ 0 →
      rel.adjustedAddressAfter (code (rel.adjustedAddressAfter b.toSmash)) = 0 ∨
      rel.adjustedAddressAfter (code b.toSmash) ≠ 0) :
    ∀ b ∈ bs,
      rel.adjustedAddressAfter ((relocateAll specBackEnd rel bs code).2 (rel.adjust b.toSmash))
        = 0 := by
  induction bs generalizing code with
  | nil => intro b hb; cases hb
  | cons b0 bs ih =>
    intro b hb
    rw [relocateAll_cons_snd]
    rcases List.mem_cons.mp hb with rfl | hb
    · apply relocateAll_keeps_settled rel hfinal
      rw [relocate_snd_spec]
      by_cases ht : rel.adjustedAddressAfter (code b.toSmash) = 0
      · simp only [ne_eq, ht, not_true_eq_false, if_false]
        by_cases hs : rel.adjustedAddressAfter b.toSmash = 0
        · simp [RelocationInfo.adjust, hs, ht]
        · rcases hnew b (List.mem_cons_self b bs) hs with h1 | h2
          · simp [RelocationInfo.adjust, hs, h1]
          · exact absurd ht h2
      · simp [ht, store_apply, hfinal _ ht]
    · apply ih _ _ b hb
      intro c hc hcs
      rcases hnew c (List.mem_cons_of_mem b0 hc) hcs with h1 | h2
      · exact Or.inl (relocate_keeps_settled rel hfinal b0 code _ h1)
      · right
        rw [relocate_snd_spec]
        by_cases ht : rel.adjustedAddressAfter (code b0.toSmash) = 0
        · simpa [ht] using h2
        · have hne : c.toSmash ≠ rel.adjust b0.toSmash := by
            intro heq
            have := adjust_settled rel hfinal b0.toSmash
            rw [← heq] at this
            exact hcs this
          simpa [ht, store_apply, hne] using h2

/-- C12, as stated, fails: `relEx` reports every address of its image as not
moved, yet on `staleEx` a second `relocate(relEx)` changes the code cache. The
first pass moves the jump from `10` to `1010` without patching it (its target
`50` did not move) and leaves the word `100` at `1010`; the second pass reads
`100` there and patches the location to `1100`. -/
theorem srcRec_relocate_twice_counterexample :
    (∀ a, relEx.adjustedAddressAfter a ≠ 0 →
      relEx.adjustedAddressAfter (relEx.adjustedAddressAfter a) = 0) ∧
    ((SrcRec.relocate specBackEnd relEx staleEx).sr.m_incomingBranches,
      (SrcRec.relocate specBackEnd relEx staleEx).code 1010,
      (SrcRec.relocate specBackEnd relEx
        (SrcRec.relocate specBackEnd relEx staleEx)).code 1010)
      = ([{ type := Tag.JMP, toSmash := 1010 }], 100, 1100) := by
  refine ⟨?_, by decide⟩
  intro a ha
  simp only [relEx] at ha ⊢
  split_ifs at ha ⊢ <;> simp_all

/-- The record that `SrcRec::relocate` leaves, field by field. -/
theorem srcRec_relocate_sr (be : BackEnd) (rel : RelocationInfo) (st : State) :
    (SrcRec.relocate be rel st).sr =
      { m_anchorTranslation := rel.adjust st.sr.m_anchorTranslation
        m_topTranslation := rel.adjust st.sr.m_topTranslation
        m_translations := st.sr.m_translations.map rel.adjust
        m_tailFallbackJumps := st.sr.m_tailFallbackJumps.map
          (fun b => ({ type := b.type, toSmash := rel.adjust b.toSmash } : IncomingBranch))
        m_incomingBranches := st.sr.m_incomingBranches.map
          (fun b => ({ type := b.type, toSmash := rel.adjust b.toSmash } : IncomingBranch))
        m_dbgBranchGuardSrc := st.sr.m_dbgBranchGuardSrc } := by
  simp only [SrcRec.relocate, relocateAll_fst]

/-- The code cache that `SrcRec::relocate` leaves: the tail jumps and then the
incoming branches are relocated in one pass. -/
theorem srcRec_relocate_code (be : BackEnd) (rel : RelocationInfo) (st : State) :
    (SrcRec.relocate be rel st).code =
      (relocateAll be rel (st.sr.m_tailFallbackJumps ++ st.sr.m_incomingBranches) st.code).2 := by
  rw [relocateAll_append]
  rfl

/-- C12, amended. For every record, code cache and relocation map that
reports every address of its image as not moved: a second `relocate(rel)`
leaves the record (anchor, top, translations, both branch lists, guard branch
address) as the first one left it; it also leaves the code cache as the first
one left it, provided that every tail jump and incoming branch whose smash
address the map moves either has a target that the map moves (the first pass
then patches it at its new location) or has at its new location, before
relocation, a word that the map reports as not moved. The proviso holds in
particular when the new location of every moved branch holds a copy of the
word at its old location. -/
theorem srcRec_relocate_twice (rel : RelocationInfo) (st : State)
    (hfinal : ∀ a, rel.adjustedAddressAfter a ≠ 0 →
      rel.adjustedAddressAfter (rel.adjustedAddressAfter a) = 0) :
    (SrcRec.relocate specBackEnd rel (SrcRec.relocate specBackEnd rel st)).sr =
      (SrcRec.relocate specBackEnd rel st).sr ∧
    ((∀ b ∈ st.sr.m_tailFallbackJumps ++ st.sr.m_incomingBranches,
        rel.adjustedAddressAfter b.toSmash ≠ 0 →
        rel.adjustedAddressAfter (st.code (rel.adjustedAddressAfter b.toSmash)) = 0 ∨
        rel.adjustedAddressAfter (st.code b.toSmash) ≠ 0) →
      SrcRec.relocate specBackEnd rel (SrcRec.relocate specBackEnd rel st) =
        SrcRec.relocate specBackEnd rel st) ∧
    ((∀ b ∈ st.sr.m_tailFallbackJumps ++ st.sr.m_incomingBranches,
        rel.adjustedAddressAfter b.toSmash ≠ 0 →
        st.code (rel.adjustedAddressAfter b.toSmash) = st.code b.toSmash) →
      SrcRec.relocate specBackEnd rel (SrcRec.relocate specBackEnd rel st) =
        SrcRec.relocate specBackEnd rel st) := by
  have hidem : ∀ bs : List IncomingBranch,
      (bs.map (fun b => ({ type := b.type, toSmash := rel.adjust b.toSmash } :
          IncomingBranch))).map
        (fun b => ({ type := b.type, toSmash := rel.adjust b.toSmash } : IncomingBranch)) =
      bs.map (fun b => ({ type := b.type, toSmash := rel.adjust b.toSmash } :
          IncomingBranch)) := by
    intro bs
    rw [List.map_map]
    exact List.map_congr_left (fun b _ => by simp [adjust_idem rel hfinal])
  have htrans : (st.sr.m_translations.map rel.adjust).map rel.adjust =
      st.sr.m_translations.map rel.adjust := by
    rw [List.map_map]
    exact List.map_congr_left (fun a _ => by simp [adjust_idem rel hfinal])
  have hsr : (SrcRec.relocate specBackEnd rel (SrcRec.relocate specBackEnd rel st)).sr =
      (SrcRec.relocate specBackEnd rel st).sr := by
    rw [srcRec_relocate_sr specBackEnd rel (SrcRec.relocate specBackEnd rel st),
      srcRec_relocate_sr specBackEnd rel st]
    simp only [hidem, htrans, adjust_idem rel hfinal]
  have hmain : (∀ b ∈ st.sr.m_tailFallbackJumps ++ st.sr.m_incomingBranches,
        rel.adjustedAddressAfter b.toSmash ≠ 0 →
        rel.adjustedAddressAfter (st.code (rel.adjustedAddressAfter b.toSmash)) = 0 ∨
        rel.adjustedAddressAfter (st.code b.toSmash) ≠ 0) →
      SrcRec.relocate specBackEnd rel (SrcRec.relocate specBackEnd rel st) =
        SrcRec.relocate specBackEnd rel st := ?_
  · refine ⟨hsr, hmain, ?_⟩
    intro hcopy
    apply hmain
    intro b hb hs
    rw [hcopy b hb hs]
    exact Classical.em _
  intro hnew
  have hsettled := relocateAll_settles rel hfinal _ st.code hnew
  have hcode : (SrcRec.relocate specBackEnd rel (SrcRec.relocate specBackEnd rel st)).code =
      (SrcRec.relocate specBackEnd rel st).code := by
    rw [srcRec_relocate_code specBackEnd rel (SrcRec.relocate specBackEnd rel st)]
    rw [relocateAll_of_settled]
    intro b hb
    rw [srcRec_relocate_sr, ← List.map_append] at hb
    obtain ⟨c, hc, rfl⟩ := List.mem_map.mp hb
    refine ⟨adjust_settled rel hfinal c.toSmash, ?_⟩
    rw [target_eq_read, srcRec_relocate_code]
    exact hsettled c hc
  calc SrcRec.relocate specBackEnd rel (SrcRec.relocate specBackEnd rel st)
      = { sr := (SrcRec.relocate specBackEnd rel (SrcRec.relocate specBackEnd rel st)).sr
          code := (SrcRec.relocate specBackEnd rel
            (SrcRec.relocate specBackEnd rel st)).code } := rfl
    _ = { sr := (SrcRec.relocate specBackEnd rel st).sr
          code := (SrcRec.relocate specBackEnd rel st).code } := by rw [hsr, hcode]
    _ = SrcRec.relocate specBackEnd rel st := rfl

/-- C12 (amended) at a concrete input: in `copiedEx` the new location `1010`
of the jump at `10` holds a copy of its word `100`; the first `relocate(relEx)`
patches the jump to `1100` at `1010`, and a second one changes nothing. -/
theorem srcRec_relocate_twice_witness :
    (SrcRec.relocate specBackEnd relEx copiedEx).code 1010 = 1100 ∧
    SrcRec.relocate specBackEnd relEx (SrcRec.relocate specBackEnd relEx copiedEx) =
      SrcRec.relocate specBackEnd relEx copiedEx := by
  have hfinal : ∀ a, relEx.adjustedAddressAfter a ≠ 0 →
      relEx.adjustedAddressAfter (relEx.adjustedAddressAfter a) = 0 := by
    intro a ha
    simp only [relEx] at ha ⊢
    split_ifs at ha ⊢ <;> simp_all
  refine ⟨by decide, (srcRec_relocate_twice relEx copiedEx hfinal).2.2 ?_⟩
  intro b hb _
  simp only [copiedEx, resolvedEx, List.nil_append, List.mem_singleton] at hb
  subst hb
  decide

/-! ## C13: relocation of a guarded record -/

/-- A relocation pass writes only at adjusted smash addresses of its branches. -/
theorem relocateAll_frame (rel : RelocationInfo) (bs : List IncomingBranch) (code : CodeCache)
    (a : TCA) (ha : a ∉ bs.map (fun b => rel.adjust b.toSmash)) :
    (relocateAll specBackEnd rel bs code).2 a = code a := by
  induction bs generalizing code with
  | nil => rfl
  | cons b bs ih =>
    rw [relocateAll_cons_snd, ih]
    · rw [relocate_snd_spec]
      have hne : a ≠ rel.adjust b.toSmash := by
        intro h
        exact ha (by simp [h])
      by_cases ht : rel.adjustedAddressAfter (code b.toSmash) = 0
      · simp [ht]
      · simp [ht, store_apply, hne]
    · intro h
      exact ha (List.mem_cons_of_mem _ h)

/-- C13, as stated, fails: `guardedEx` has a guard active, and
`relocate(relGuardEx)`, which moves the guard `200` and the translation `100`,
patches the incoming jump at `10` from `200` to `1200` and leaves the guard
branch at `210` on `100`. -/
theorem srcRec_relocate_guarded_counterexample :
    (guardedEx.sr.hasDebuggerGuard,
      guardedEx.sr.m_dbgBranchGuardSrc,
      (SrcRec.relocate specBackEnd relGuardEx guardedEx).sr.m_incomingBranches,
      guardedEx.code 10,
      (SrcRec.relocate specBackEnd relGuardEx guardedEx).code 10,
      guardedEx.code 210,
      (SrcRec.relocate specBackEnd relGuardEx guardedEx).code 210)
      = (true, 210, [{ type := Tag.JMP, toSmash := 10 }], 200, 1200, 100, 100) := by
  decide

/-- C13, amended. For every record, with a debugger guard active or not, and
every relocation map, `SrcRec::relocate(rel)` does not consult the guard:
* its result is the one it gives on the same record without a guard, with the
  guard branch address put back as it was;
* every tail jump and incoming branch is relocated in its turn by
  `IncomingBranch::relocate`, so a branch whose target the map moves is patched
  at its adjusted smash address;
* with the modelled back end, a location that is not the adjusted smash address
  of a tail jump or incoming branch is not written, so the guard branch is
  never patched as such. -/
theorem srcRec_relocate_guarded (be : BackEnd) (rel : RelocationInfo) (st : State) :
    SrcRec.relocate be rel st =
      { sr := { (SrcRec.relocate be rel
                  { sr := { st.sr with m_dbgBranchGuardSrc := 0 }, code := st.code }).sr with
                m_dbgBranchGuardSrc := st.sr.m_dbgBranchGuardSrc }
        code := (SrcRec.relocate be rel
                  { sr := { st.sr with m_dbgBranchGuardSrc := 0 }, code := st.code }).code } ∧
    (∀ pre b post, st.sr.m_tailFallbackJumps ++ st.sr.m_incomingBranches = pre ++ b :: post →
      rel.adjustedAddressAfter (b.target be (relocateAll be rel pre st.code).2) ≠ 0 →
      (relocateAll be rel (pre ++ [b]) st.code).2 =
        (b.relocate be rel (relocateAll be rel pre st.code).2).1.patch be
          (relocateAll be rel pre st.code).2
          (rel.adjustedAddressAfter (b.target be (relocateAll be rel pre st.code).2))) ∧
    (∀ a, a ∉ (st.sr.m_tailFallbackJumps ++ st.sr.m_incomingBranches).map
        (fun b => rel.adjust b.toSmash) →
      (SrcRec.relocate specBackEnd rel st).code a = st.code a) := by
  refine ⟨rfl, ?_, ?_⟩
  · intro pre b post _ ht
    rw [relocateAll_append]
    show (b.relocate be rel (relocateAll be rel pre st.code).2).2 = _
    rw [relocate_snd, if_pos ht]
  · intro a ha
    rw [srcRec_relocate_code]
    exact relocateAll_frame rel _ st.code a ha

/-- C13 (amended) at a concrete input: on `guardedEx` with `relGuardEx` the
incoming jump at `10`, whose target `200` moves, is patched to `1200`, and the
guard branch location `210` keeps its word. -/
theorem srcRec_relocate_guarded_witness :
    (relocateAll specBackEnd relGuardEx [{ type := Tag.JMP, toSmash := 10 }] guardedEx.code).2
      = ({ type := Tag.JMP, toSmash := 10 } : IncomingBranch).patch specBackEnd
          guardedEx.code 1200 ∧
    (SrcRec.relocate specBackEnd relGuardEx guardedEx).code 210 = guardedEx.code 210 := by
  have h := srcRec_relocate_guarded specBackEnd relGuardEx guardedEx
  refine ⟨?_, h.2.2 210 (by decide)⟩
  exact h.2.1 [] { type := Tag.JMP, toSmash := 10 } [] rfl (by decide)

/-! ## C15: the translation limit -/

/-- C15, as stated, fails: with a limit of one translation, `newTranslation`
on `resolvedEx`, which already holds one translation, passes the assertion and
leaves two translations. -/
theorem newTranslation_limit_counterexample :
    (mcgOneEx.options.EvalJitMaxTranslations,
      (SrcRec.newTranslation specBackEnd mcgOneEx resolvedEx 300 []).map
        (fun r => (r.1.sr.m_translations, r.1.sr.m_translations.length)))
      = (1, some ([100, 300], 2)) := by
  decide

/-- C15, amended. For every back end, record and limit `L`: `newTranslation`
completes exactly when the record holds at most `L` translations before the
call; it then leaves one more translation than before, hence at most `L + 1`;
on a record that already holds more than `L` translations the assertion, which
is the first statement of the function, fails: no state is produced and no
effect is performed. -/
theorem newTranslation_limit (be : BackEnd) (mcg : MCGenerator) (st : State) (t : TCA)
    (tail : List IncomingBranch) :
    (st.sr.m_translations.length ≤ mcg.options.EvalJitMaxTranslations →
      ∃ st1 out, SrcRec.newTranslation be mcg st t tail = some (st1, out) ∧
        st1.sr.m_translations.length = st.sr.m_translations.length + 1 ∧
        st1.sr.m_translations.length ≤ mcg.options.EvalJitMaxTranslations + 1) ∧
    (mcg.options.EvalJitMaxTranslations < st.sr.m_translations.length →
      SrcRec.newTranslation be mcg st t tail = none ∧
      SrcRec.newTranslationEffects mcg st.sr t tail = none) := by
  constructor
  · intro h
    unfold SrcRec.newTranslation
    rw [if_pos h]
    refine ⟨_, _, rfl, ?_, ?_⟩
    · by_cases htop : st.sr.m_topTranslation = 0 <;> simp [htop]
    · by_cases htop : st.sr.m_topTranslation = 0 <;> simp [htop, h]
  · intro h
    unfold SrcRec.newTranslation SrcRec.newTranslationEffects
    rw [if_neg (Nat.not_le.mpr h), if_neg (Nat.not_le.mpr h)]
    exact ⟨rfl, rfl⟩

/-- C15 (amended) at concrete inputs: with a limit of one, `resolvedEx` (one
translation) is accepted and ends with two; the state it ends in is refused. -/
theorem newTranslation_limit_witness :
    (∃ st1 out, SrcRec.newTranslation specBackEnd mcgOneEx resolvedEx 300 [] = some (st1, out) ∧
      st1.sr.m_translations.length = 2 ∧
      SrcRec.newTranslation specBackEnd mcgOneEx st1 400 [] = none) := by
  obtain ⟨st1, out, h1, h2, _⟩ :=
    (newTranslation_limit specBackEnd mcgOneEx resolvedEx 300 []).1 (by decide)
  refine ⟨st1, out, h1, h2, ?_⟩
  refine ((newTranslation_limit specBackEnd mcgOneEx st1 400 []).2 ?_).1
  rw [h2]
  decide

/-! ## C14: where the top translation is published within a call -/

theorem runEffects_nil (be : BackEnd) (st : State) : runEffects be [] st = st := rfl

theorem runEffects_cons (be : BackEnd) (e : Effect) (es : List Effect) (st : State) :
    runEffects be (e :: es) st = runEffects be es (e.apply be st) := rfl

theorem runEffects_append (be : BackEnd) (e1 e2 : List Effect) (st : State) :
    runEffects be (e1 ++ e2) st = runEffects be e2 (runEffects be e1 st) := by
  simp [runEffects, List.foldl_append]

theorem runEffects_patches (be : BackEnd) (bs : List IncomingBranch) (dest : TCA) (st : State) :
    runEffects be (bs.map (fun br => Effect.patchBranch br dest)) st =
      { sr := st.sr, code := patchAll be bs st.code dest } := by
  induction bs generalizing st with
  | nil => rfl
  | cons b bs ih =>
    rw [List.map_cons, runEffects_cons, ih]
    rfl

theorem runEffects_patchIncomingBranches (be : BackEnd) (sr : SrcRec) (dest : TCA)
    (sr1 : SrcRec) (code : CodeCache)
    (hdbg : sr1.m_dbgBranchGuardSrc = sr.m_dbgBranchGuardSrc)
    (hinc : sr1.m_incomingBranches = sr.m_incomingBranches) :
    runEffects be (sr.patchIncomingBranchesEffects dest) { sr := sr1, code := code } =
      { sr := sr1, code := sr1.patchIncomingBranches be code dest } := by
  unfold SrcRec.patchIncomingBranchesEffects SrcRec.patchIncomingBranches
  have hg : sr1.hasDebuggerGuard = sr.hasDebuggerGuard := by
    simp [SrcRec.hasDebuggerGuard, hdbg]
  by_cases h : sr.hasDebuggerGuard = true
  · rw [if_pos h, if_pos (hg.trans h), hdbg]
    rfl
  · rw [if_neg h, if_neg (by rw [hg]; exact h), runEffects_patches, hinc]

/-- The effects listed for `newTranslation`, applied in order, give the state
that `newTranslation` returns. -/
theorem newTranslation_eq_runEffects (be : BackEnd) (mcg : MCGenerator) (st : State)
    (t : TCA) (tail : List IncomingBranch) :
    SrcRec.newTranslation be mcg st t tail =
      (SrcRec.newTranslationEffects mcg st.sr t tail).map
        (fun effects => (runEffects be effects st, st.sr.m_tailFallbackJumps)) := by
  unfold SrcRec.newTranslation SrcRec.newTranslationEffects
  by_cases hlimit : st.sr.m_translations.length ≤ mcg.options.EvalJitMaxTranslations
  · rw [if_pos hlimit, if_pos hlimit, Option.map_some']
    by_cases htop : st.sr.m_topTranslation = 0
    · simp only [htop, if_true, runEffects_append, runEffects_cons, runEffects_nil,
        runEffects_patches, Effect.apply]
      rw [runEffects_patchIncomingBranches be st.sr t
        { m_anchorTranslation := st.sr.m_anchorTranslation
          m_topTranslation := t
          m_translations := st.sr.m_translations ++ [t]
          m_tailFallbackJumps := st.sr.m_tailFallbackJumps
          m_incomingBranches := st.sr.m_incomingBranches
          m_dbgBranchGuardSrc := st.sr.m_dbgBranchGuardSrc } st.code rfl rfl]
    · simp only [htop, if_false, runEffects_append, runEffects_cons, runEffects_nil,
        runEffects_patches, Effect.apply]
  · rw [if_neg hlimit, if_neg hlimit]
    rfl

/-- The effects listed for `addDebuggerGuard`, applied in order, give the state
that `addDebuggerGuard` returns. -/
theorem addDebuggerGuard_eq_runEffects (be : BackEnd) (st : State) (g gb : TCA) :
    SrcRec.addDebuggerGuard be st g gb =
      (SrcRec.addDebuggerGuardEffects st.sr g gb).map
        (fun effects => runEffects be effects st) := by
  unfold SrcRec.addDebuggerGuard SrcRec.addDebuggerGuardEffects
  by_cases hnone : st.sr.m_dbgBranchGuardSrc = 0
  · rw [if_pos hnone, if_pos hnone, Option.map_some']
    refine congrArg some ?_
    cases st with
    | mk sr code =>
      rw [runEffects_append, runEffects_patchIncomingBranches be sr g sr code rfl rfl]
      rfl
  · rw [if_neg hnone, if_neg hnone]
    rfl

/-- C14, as stated, fails for `newTranslation`: on the unresolved record
`unresolvedEx`, `newTranslation(100, [])` stores the top translation right
after the `push_back`, and both incoming branches are patched after that
store. -/
theorem publication_order_counterexample :
    SrcRec.newTranslationEffects mcgEx unresolvedEx.sr 100 [] =
      some [Effect.pushTranslation 100,
            Effect.storeTopTranslation 100,
            Effect.patchBranch { type := Tag.JMP, toSmash := 10 } 100,
            Effect.patchBranch { type := Tag.ADDR, toSmash := 16 } 100,
            Effect.patchBranch { type := Tag.JCC, toSmash := 30 } 100,
            Effect.swapTailFallbackJumps []] := by
  decide

/-- C14, amended. In the sequence of effects of a single call:
* `addDebuggerGuard(g, gb)` on a record without a guard first patches every
  incoming branch to `g`, then sets the guard branch address, and stores `g` as
  the top translation last, so no patch follows the publication;
* `newTranslation(t, tail)` on an unresolved record without a guard appends
  `t`, then stores `t` as the top translation, and only then patches every
  incoming branch and after them every tail jump to `t`, so every patch of the
  call follows the publication.
In both cases the listed effects, applied in order, give the result of the
operation. -/
theorem publication_order (be : BackEnd) (mcg : MCGenerator) (st : State) (g gb t : TCA)
    (tail : List IncomingBranch) :
    (st.sr.m_dbgBranchGuardSrc = 0 →
      SrcRec.addDebuggerGuardEffects st.sr g gb =
        some (st.sr.m_incomingBranches.map (fun br => Effect.patchBranch br g)
          ++ [Effect.setDbgBranchGuardSrc gb, Effect.storeTopTranslation g]) ∧
      SrcRec.addDebuggerGuard be st g gb =
        some (runEffects be
          (st.sr.m_incomingBranches.map (fun br => Effect.patchBranch br g)
            ++ [Effect.setDbgBranchGuardSrc gb, Effect.storeTopTranslation g]) st)) ∧
    (st.sr.m_translations.length ≤ mcg.options.EvalJitMaxTranslations →
      st.sr.m_topTranslation = 0 → st.sr.hasDebuggerGuard = false →
      SrcRec.newTranslationEffects mcg st.sr t tail =
        some ([Effect.pushTranslation t, Effect.storeTopTranslation t]
          ++ st.sr.m_incomingBranches.map (fun br => Effect.patchBranch br t)
          ++ st.sr.m_tailFallbackJumps.map (fun br => Effect.patchBranch br t)
          ++ [Effect.swapTailFallbackJumps tail]) ∧
      SrcRec.newTranslation be mcg st t tail =
        some (runEffects be
          ([Effect.pushTranslation t, Effect.storeTopTranslation t]
            ++ st.sr.m_incomingBranches.map (fun br => Effect.patchBranch br t)
            ++ st.sr.m_tailFallbackJumps.map (fun br => Effect.patchBranch br t)
            ++ [Effect.swapTailFallbackJumps tail]) st,
          st.sr.m_tailFallbackJumps)) := by
  constructor
  · intro hnone
    have hg : st.sr.hasDebuggerGuard = false := by simp [SrcRec.hasDebuggerGuard, hnone]
    have he : SrcRec.addDebuggerGuardEffects st.sr g gb =
        some (st.sr.m_incomingBranches.map (fun br => Effect.patchBranch br g)
          ++ [Effect.setDbgBranchGuardSrc gb, Effect.storeTopTranslation g]) := by
      simp [SrcRec.addDebuggerGuardEffects, SrcRec.patchIncomingBranchesEffects, hnone, hg]
    refine ⟨he, ?_⟩
    rw [addDebuggerGuard_eq_runEffects, he]
    rfl
  · intro hlimit htop hg
    have he : SrcRec.newTranslationEffects mcg st.sr t tail =
        some ([Effect.pushTranslation t, Effect.storeTopTranslation t]
          ++ st.sr.m_incomingBranches.map (fun br => Effect.patchBranch br t)
          ++ st.sr.m_tailFallbackJumps.map (fun br => Effect.patchBranch br t)
          ++ [Effect.swapTailFallbackJumps tail]) := by
      simp [SrcRec.newTranslationEffects, SrcRec.patchIncomingBranchesEffects, hlimit, htop, hg]
    refine ⟨he, ?_⟩
    rw [newTranslation_eq_runEffects, he]
    rfl

/-- C14 (amended) at concrete inputs: the effects of `addDebuggerGuard(200, 210)`
on `resolvedEx` and of `newTranslation(100, [])` on `unresolvedEx`. -/
theorem publication_order_witness :
    SrcRec.addDebuggerGuardEffects resolvedEx.sr 200 210 =
      some [Effect.patchBranch { type := Tag.JMP, toSmash := 10 } 200,
            Effect.setDbgBranchGuardSrc 210,
            Effect.storeTopTranslation 200] ∧
    SrcRec.newTranslation specBackEnd mcgEx unresolvedEx 100 [] =
      some (runEffects specBackEnd
        [Effect.pushTranslation 100,
         Effect.storeTopTranslation 100,
         Effect.patchBranch { type := Tag.JMP, toSmash := 10 } 100,
         Effect.patchBranch { type := Tag.ADDR, toSmash := 16 } 100,
         Effect.patchBranch { type := Tag.JCC, toSmash := 30 } 100,
         Effect.swapTailFallbackJumps []] unresolvedEx,
        [{ type := Tag.JCC, toSmash := 30 }]) :=
  ⟨((publication_order specBackEnd mcgEx resolvedEx 200 210 0 []).1 rfl).1,
   ((publication_order specBackEnd mcgEx unresolvedEx 0 0 100 []).2 (by decide) rfl rfl).2⟩

/-! ## C19: emitting a fallback jump -/

/-- C19. For every back end and emitter such that `emitSmashableJump` leaves at
the frontier it was given a jump (for `CC_None`) or a conditional jump (for
another condition code) to the destination it was given, every record with a
non-null anchor, every code block and every condition code (`CC_None` or a
non-negative code): `getFallbackTranslation()` returns the anchor;
`emitFallbackJump(cb, cc)` completes, pushes exactly one branch on the
in-progress tail jumps, whose smash address is the frontier at which the jump
is emitted (the frontier read after `prepareForSmash`, right before the
emission) and whose kind is `JMP` for `CC_None` and `JCC` otherwise; that
branch has `target()` equal to the anchor; and the record is unchanged. -/
theorem emitFallbackJump_spec (be : BackEnd) (em : BackEndEmit)
    (hemit : ∀ code cb dest cc,
      (cc = CC_None →
        be.jmpTarget (em.emitSmashableJump code cb dest cc).1 cb.frontier = dest) ∧
      (cc ≠ CC_None →
        be.jccTarget (em.emitSmashableJump code cb dest cc).1 cb.frontier = dest))
    (es : EmitState) (cc : ConditionCode)
    (hanchor : es.st.sr.m_anchorTranslation ≠ 0)
    (hcc : cc = CC_None ∨ 0 ≤ cc) :
    es.st.sr.getFallbackTranslation = some es.st.sr.m_anchorTranslation ∧
    ∃ es1, SrcRec.emitFallbackJump em es cc = some es1 ∧
      es1.m_inProgressTailJumps = es.m_inProgressTailJumps ++
        [{ type := if cc = CC_None then Tag.JMP else Tag.JCC
           toSmash := (em.prepareForSmash es.st.code es.cb
             (if cc = CC_None then em.kJmpLen else em.kJmpccLen)).2.frontier }] ∧
      ({ type := if cc = CC_None then Tag.JMP else Tag.JCC
         toSmash := (em.prepareForSmash es.st.code es.cb
           (if cc = CC_None then em.kJmpLen else em.kJmpccLen)).2.frontier } :
        IncomingBranch).target be es1.st.code = es.st.sr.m_anchorTranslation ∧
      es1.st.sr = es.st.sr := by
  have hfb : es.st.sr.getFallbackTranslation = some es.st.sr.m_anchorTranslation := by
    simp [SrcRec.getFallbackTranslation, hanchor]
  refine ⟨hfb, ?_⟩
  have hneg : cc < 0 ↔ cc = CC_None := by
    constructor
    · intro hlt
      rcases hcc with h | h
      · exact h
      · exact absurd hlt (Int.not_lt.mpr h)
    · intro h
      rw [h]
      decide
  unfold SrcRec.emitFallbackJump
  simp only [hfb, SrcRec.registerFallbackJump]
  refine ⟨_, rfl, ?_, ?_, rfl⟩
  · by_cases h : cc = CC_None
    · simp [h, hneg.mpr h, IncomingBranch.jmpFrom, CC_None]
    · have hn : ¬ cc < 0 := fun hlt => h (hneg.mp hlt)
      simp [h, hn, IncomingBranch.jccFrom]
  · by_cases h : cc = CC_None
    · simp only [h, if_true, IncomingBranch.target]
      exact (hemit _ _ _ _).1 rfl
    · simp only [h, if_false, IncomingBranch.target]
      exact (hemit _ _ _ _).2 h

/-- C19 at a concrete input: with the modelled back end and `emitEx`, an
unconditional fallback jump emitted for `resolvedEx` into a block with frontier
`60` is placed at `64`, registered as the jump at `64`, and goes to the anchor
`5`. -/
theorem emitFallbackJump_spec_witness :
    ∃ es1, SrcRec.emitFallbackJump emitEx emitStateEx CC_None = some es1 ∧
      es1.m_inProgressTailJumps = [{ type := Tag.JMP, toSmash := 64 }] ∧
      ({ type := Tag.JMP, toSmash := 64 } : IncomingBranch).target specBackEnd es1.st.code = 5 ∧
      es1.st.sr = emitStateEx.st.sr := by
  have hemit : ∀ code cb dest cc,
      (cc = CC_None →
        specBackEnd.jmpTarget (emitEx.emitSmashableJump code cb dest cc).1 cb.frontier = dest) ∧
      (cc ≠ CC_None →
        specBackEnd.jccTarget (emitEx.emitSmashableJump code cb dest cc).1 cb.frontier = dest) := by
    intro code cb dest cc
    simp [emitEx, specBackEnd, store_apply]
  obtain ⟨_, es1, h1, h2, h3, h4⟩ :=
    emitFallbackJump_spec specBackEnd emitEx hemit emitStateEx CC_None (by decide) (Or.inl rfl)
  exact ⟨es1, h1, h2, h3, h4⟩

/-! ## The record after one completed call -/

theorem chainFrom_sr (be : BackEnd) (mcg : MCGenerator) (st st1 : State) (br : IncomingBranch)
    (h : SrcRec.chainFrom be mcg st br = some st1) :
    st1.sr = { m_anchorTranslation := st.sr.m_anchorTranslation
               m_topTranslation := st.sr.m_topTranslation
               m_translations := st.sr.m_translations
               m_tailFallbackJumps := st.sr.m_tailFallbackJumps
               m_incomingBranches := st.sr.m_incomingBranches ++ [br]
               m_dbgBranchGuardSrc := st.sr.m_dbgBranchGuardSrc } := by
  unfold SrcRec.chainFrom at h
  split_ifs at h
  cases h
  rfl

theorem newTranslation_sr (be : BackEnd) (mcg : MCGenerator) (st st1 : State) (t : TCA)
    (tail : List IncomingBranch)
    (h : (SrcRec.newTranslation be mcg st t tail).map Prod.fst = some st1) :
    st1.sr = { m_anchorTranslation := st.sr.m_anchorTranslation
               m_topTranslation :=
                 if st.sr.m_topTranslation = 0 then t else st.sr.m_topTranslation
               m_translations := st.sr.m_translations ++ [t]
               m_tailFallbackJumps := tail
               m_incomingBranches := st.sr.m_incomingBranches
               m_dbgBranchGuardSrc := st.sr.m_dbgBranchGuardSrc } := by
  unfold SrcRec.newTranslation at h
  split_ifs at h
  · simp only [Option.map_some', Option.some.injEq] at h
    subst h
    by_cases htop : st.sr.m_topTranslation = 0 <;> simp [htop]
  · cases h

theorem addDebuggerGuard_sr (be : BackEnd) (st st1 : State) (g gb : TCA)
    (h : SrcRec.addDebuggerGuard be st g gb = some st1) :
    st1.sr = { m_anchorTranslation := st.sr.m_anchorTranslation
               m_topTranslation := g
               m_translations := st.sr.m_translations
               m_tailFallbackJumps := st.sr.m_tailFallbackJumps
               m_incomingBranches := st.sr.m_incomingBranches
               m_dbgBranchGuardSrc := gb } := by
  unfold SrcRec.addDebuggerGuard at h
  split_ifs at h
  cases h
  rfl

theorem replaceOldTranslations_sr (be : BackEnd) (mcg : MCGenerator) (st st1 : State)
    (h : SrcRec.replaceOldTranslations be mcg st = some st1) :
    st1.sr = { m_anchorTranslation := st.sr.m_anchorTranslation
               m_topTranslation := 0
               m_translations := []
               m_tailFallbackJumps := []
               m_incomingBranches := st.sr.m_incomingBranches
               m_dbgBranchGuardSrc := st.sr.m_dbgBranchGuardSrc } := by
  unfold SrcRec.replaceOldTranslations at h
  split_ifs at h
  cases h
  rfl

theorem runOps_nil (be : BackEnd) (mcg : MCGenerator) (st : State) :
    runOps be mcg [] st = some st := rfl

theorem runOps_cons (be : BackEnd) (mcg : MCGenerator) (op : Op) (ops : List Op) (st : State) :
    runOps be mcg (op :: ops) st = (op.apply be mcg st).bind (runOps be mcg ops) := rfl

/-- A property of states that every admitted call preserves holds after every
sequence of admitted calls that completes. -/
theorem runOps_invariant (be : BackEnd) (mcg : MCGenerator) (P : Op → Prop)
    (Inv : State → Prop)
    (hstep : ∀ op st st1, P op → Inv st → op.apply be mcg st = some st1 → Inv st1)
    (ops : List Op) (st st1 : State) (hops : ∀ op ∈ ops, P op) (hinv : Inv st)
    (hrun : runOps be mcg ops st = some st1) : Inv st1 := by
  induction ops generalizing st with
  | nil =>
    rw [runOps_nil] at hrun
    cases hrun
    exact hinv
  | cons op ops ih =>
    rw [runOps_cons] at hrun
    cases hop : op.apply be mcg st with
    | none => rw [hop] at hrun; cases hrun
    | some st2 =>
      rw [hop] at hrun
      exact ih st2 (fun o ho => hops o (List.mem_cons_of_mem op ho))
        (hstep op st st2 (hops op (List.mem_cons_self op ops)) hinv hop) hrun

/-! ## C20: an unresolved record holds no translation and no tail jump -/

/-- Every call with non-null entry and guard addresses keeps the property that
a null top translation comes with no translation and no tail jump. -/
theorem unresolved_empty_step (be : BackEnd) (mcg : MCGenerator) (op : Op) (st st1 : State)
    (hop : op.nonNull = true)
    (hinv : st.sr.m_topTranslation = 0 →
      st.sr.m_translations = [] ∧ st.sr.m_tailFallbackJumps = [])
    (h : op.apply be mcg st = some st1) :
    st1.sr.m_topTranslation = 0 →
      st1.sr.m_translations = [] ∧ st1.sr.m_tailFallbackJumps = [] := by
  cases op with
  | chainFrom br =>
    rw [chainFrom_sr be mcg st st1 br h]
    exact hinv
  | newTranslation t tail =>
    rw [newTranslation_sr be mcg st st1 t tail h]
    have ht : t ≠ 0 := by simpa [Op.nonNull] using hop
    intro htop
    by_cases h0 : st.sr.m_topTranslation = 0
    · simp [h0] at htop
      exact absurd htop ht
    · simp [h0] at htop
  | addDebuggerGuard g gb =>
    rw [addDebuggerGuard_sr be st st1 g gb h]
    have hg : g ≠ 0 := by simpa [Op.nonNull] using hop
    intro htop
    exact absurd htop hg
  | replaceOldTranslations =>
    rw [replaceOldTranslations_sr be mcg st st1 h]
    intro _
    exact ⟨rfl, rfl⟩
  | relocate rel =>
    simp only [Op.apply, Option.some.injEq] at h
    subst h
    rw [srcRec_relocate_sr]
    intro htop
    have h0 : st.sr.m_topTranslation = 0 := by
      simp only [RelocationInfo.adjust] at htop
      by_cases hm : rel.adjustedAddressAfter st.sr.m_topTranslation = 0
      · simpa [hm] using htop
      · simp [hm] at htop
    obtain ⟨h1, h2⟩ := hinv h0
    simp [h1, h2]

/-- C20. For every back end, in every state reached from a fresh record by a
sequence of `chainFrom`, `newTranslation` with a non-null entry address,
`addDebuggerGuard` with a non-null guard address, `replaceOldTranslations` and
`relocate` calls that complete: if the top translation is null, then there is
no translation and no tail jump, so a `newTranslation` on it patches no tail
jump. -/
theorem unresolved_is_empty (be : BackEnd) (mcg : MCGenerator) (anchor : TCA)
    (code : CodeCache) (ops : List Op) (st : State)
    (hops : ∀ op ∈ ops, op.nonNull = true)
    (hrun : runOps be mcg ops { sr := SrcRec.fresh anchor, code := code } = some st)
    (htop : st.sr.m_topTranslation = 0) :
    st.sr.m_translations = [] ∧ st.sr.m_tailFallbackJumps = [] ∧
      ∀ t, patchAll be st.sr.m_tailFallbackJumps st.code t = st.code := by
  have h := runOps_invariant be mcg (fun op => op.nonNull = true)
    (fun s => s.sr.m_topTranslation = 0 →
      s.sr.m_translations = [] ∧ s.sr.m_tailFallbackJumps = [])
    (fun op s s1 hop hinv hs => unresolved_empty_step be mcg op s s1 hop hinv hs)
    ops _ st hops (fun _ => ⟨rfl, rfl⟩) hrun htop
  refine ⟨h.1, h.2, ?_⟩
  intro t
  rw [h.2]
  rfl

/-- C20 at a concrete input: after `invalidatedOpsEx` on the fresh record with
anchor `5` the top translation is null and the record holds no translation
and no tail jump. -/
theorem unresolved_is_empty_witness :
    ∃ st, runOps specBackEnd mcgEx invalidatedOpsEx { sr := SrcRec.fresh 5, code := codeEx }
        = some st ∧
      st.sr.m_topTranslation = 0 ∧
      st.sr.m_translations = [] ∧ st.sr.m_tailFallbackJumps = [] := by
  have hsome : (runOps specBackEnd mcgEx invalidatedOpsEx
      { sr := SrcRec.fresh 5, code := codeEx }).isSome = true := by decide
  obtain ⟨st, hst⟩ := Option.isSome_iff_exists.mp hsome
  have htop : (runOps specBackEnd mcgEx invalidatedOpsEx
      { sr := SrcRec.fresh 5, code := codeEx }).map (fun s => s.sr.m_topTranslation)
      = some 0 := by decide
  rw [hst] at htop
  have htop0 : st.sr.m_topTranslation = 0 := by simpa using htop
  have h := unresolved_is_empty specBackEnd mcgEx 5 codeEx invalidatedOpsEx st
    (by decide) hst htop0
  exact ⟨st, hst, htop0, h.1, h.2.1⟩

/-! ## C16: what the top translation can be -/

theorem adjust_null (rel : RelocationInfo) (h : rel.adjustedAddressAfter 0 = 0) :
    rel.adjust 0 = 0 := by
  simp [RelocationInfo.adjust, h]

/-- One call keeps the top translation null, among the translations, or equal
to the guard address as tracked through the call. -/
theorem top_translation_step (be : BackEnd) (mcg : MCGenerator) (op : Op) (st st1 : State)
    (g : TCA) (hop : op.keepsNull = true)
    (hinv : st.sr.m_topTranslation = 0 ∨ st.sr.m_topTranslation ∈ st.sr.m_translations ∨
      st.sr.m_topTranslation = g)
    (h : op.apply be mcg st = some st1) :
    st1.sr.m_topTranslation = 0 ∨ st1.sr.m_topTranslation ∈ st1.sr.m_translations ∨
      st1.sr.m_topTranslation = op.guardAddress g := by
  cases op with
  | chainFrom br =>
    rw [chainFrom_sr be mcg st st1 br h]
    exact hinv
  | newTranslation t tail =>
    rw [newTranslation_sr be mcg st st1 t tail h]
    by_cases h0 : st.sr.m_topTranslation = 0
    · right; left
      simp [h0]
    · rcases hinv with h1 | h1 | h1
      · exact absurd h1 h0
      · right; left
        simp [h0, h1]
      · right; right
        simpa [h0, Op.guardAddress] using h1
  | addDebuggerGuard g1 gb =>
    rw [addDebuggerGuard_sr be st st1 g1 gb h]
    right; right
    rfl
  | replaceOldTranslations =>
    rw [replaceOldTranslations_sr be mcg st st1 h]
    left
    rfl
  | relocate rel =>
    simp only [Op.apply, Option.some.injEq] at h
    subst h
    rw [srcRec_relocate_sr]
    have hnull : rel.adjustedAddressAfter 0 = 0 := by simpa [Op.keepsNull] using hop
    rcases hinv with h1 | h1 | h1
    · left
      simp [h1, adjust_null rel hnull]
    · right; left
      exact List.mem_map_of_mem _ h1
    · right; right
      simp [h1, Op.guardAddress]

theorem top_translation_run (be : BackEnd) (mcg : MCGenerator) (ops : List Op)
    (st st1 : State) (g : TCA) (hops : ∀ op ∈ ops, op.keepsNull = true)
    (hinv : st.sr.m_topTranslation = 0 ∨ st.sr.m_topTranslation ∈ st.sr.m_translations ∨
      st.sr.m_topTranslation = g)
    (hrun : runOps be mcg ops st = some st1) :
    st1.sr.m_topTranslation = 0 ∨ st1.sr.m_topTranslation ∈ st1.sr.m_translations ∨
      st1.sr.m_topTranslation = guardAddressAfter ops g := by
  induction ops generalizing st g with
  | nil =>
    rw [runOps_nil] at hrun
    cases hrun
    exact hinv
  | cons op ops ih =>
    rw [runOps_cons] at hrun
    cases hop : op.apply be mcg st with
    | none => rw [hop] at hrun; cases hrun
    | some st2 =>
      rw [hop] at hrun
      exact ih st2 (op.guardAddress g) (fun o ho => hops o (List.mem_cons_of_mem op ho))
        (top_translation_step be mcg op st st2 g (hops op (List.mem_cons_self op ops)) hinv hop)
        hrun

/-- C16, as stated, fails when a relocation map moves the null address: from
the fresh record with anchor `5`, `addDebuggerGuard(200, 210)`,
`replaceOldTranslations()` and `relocate` with `relNullEx` complete; the
invalidation leaves a null top translation, which the relocation adjusts to
`900`, while the record holds no translation and the guard address is still
`200`. -/
theorem top_translation_invariant_counterexample :
    (runOps specBackEnd mcgEx nullMovedOpsEx { sr := SrcRec.fresh 5, code := codeEx }).map
        (fun st => (st.sr.m_topTranslation, st.sr.m_translations,
                    guardAddressAfter nullMovedOpsEx 0))
      = some (900, [], 200) := by
  decide

/-- C16, amended. For every back end, in every state reached from a fresh
record by a sequence of `chainFrom`, `newTranslation`, `addDebuggerGuard`,
`replaceOldTranslations` and `relocate` calls that complete, where every
relocation map reports the null address as not moved: the top translation is
null, or is one of the translations, or is the guard address installed by
`addDebuggerGuard` as adjusted by the relocations after it. -/
theorem top_translation_invariant (be : BackEnd) (mcg : MCGenerator) (anchor : TCA)
    (code : CodeCache) (ops : List Op) (st : State)
    (hops : ∀ op ∈ ops, op.keepsNull = true)
    (hrun : runOps be mcg ops { sr := SrcRec.fresh anchor, code := code } = some st) :
    st.sr.m_topTranslation = 0 ∨ st.sr.m_topTranslation ∈ st.sr.m_translations ∨
      st.sr.m_topTranslation = guardAddressAfter ops 0 :=
  top_translation_run be mcg ops _ st 0 hops (Or.inl rfl) hrun

/-- C16 (amended) at a concrete input: after `guardedOpsEx` on the fresh record with
anchor `5`, the top translation is the relocated guard address `1200`, which
is not among the translations `[1100]`. -/
theorem top_translation_invariant_witness :
    ∃ st, runOps specBackEnd mcgEx guardedOpsEx { sr := SrcRec.fresh 5, code := codeEx }
        = some st ∧
      guardAddressAfter guardedOpsEx 0 = 1200 ∧
      (st.sr.m_topTranslation = 0 ∨ st.sr.m_topTranslation ∈ st.sr.m_translations ∨
        st.sr.m_topTranslation = guardAddressAfter guardedOpsEx 0) := by
  have hsome : (runOps specBackEnd mcgEx guardedOpsEx
      { sr := SrcRec.fresh 5, code := codeEx }).isSome = true := by decide
  obtain ⟨st, hst⟩ := Option.isSome_iff_exists.mp hsome
  exact ⟨st, hst, by decide,
    top_translation_invariant specBackEnd mcgEx 5 codeEx guardedOpsEx st (by decide) hst⟩

/-! ## C18: a resolved record is reachable from every incoming branch -/

theorem registeredAddrs_chainFrom (br : IncomingBranch) (ops : List Op) :
    registeredAddrs (Op.chainFrom br :: ops) = br.toSmash :: registeredAddrs ops := rfl

theorem registeredAddrs_newTranslation (t : TCA) (tail : List IncomingBranch) (ops : List Op) :
    registeredAddrs (Op.newTranslation t tail :: ops) = registeredAddrs ops := rfl

theorem registeredAddrs_replaceOldTranslations (ops : List Op) :
    registeredAddrs (Op.replaceOldTranslations :: ops) = registeredAddrs ops := rfl

theorem suppliedTailAddrs_chainFrom (br : IncomingBranch) (ops : List Op) :
    suppliedTailAddrs (Op.chainFrom br :: ops) = suppliedTailAddrs ops := rfl

theorem suppliedTailAddrs_newTranslation (t : TCA) (tail : List IncomingBranch)
    (ops : List Op) :
    suppliedTailAddrs (Op.newTranslation t tail :: ops) =
      tail.map IncomingBranch.toSmash ++ suppliedTailAddrs ops := rfl

theorem suppliedTailAddrs_replaceOldTranslations (ops : List Op) :
    suppliedTailAddrs (Op.replaceOldTranslations :: ops) = suppliedTailAddrs ops := rfl

/-- One call without guard and relocation keeps the record chained: no guard,
an unresolved record holds nothing, every incoming branch of a resolved record
goes to the top translation, which is the first translation, and no incoming
branch, present or to come, shares its smash address with a tail jump, present
or to come. -/
theorem resolved_step (mcg : MCGenerator) (op : Op) (ops : List Op) (st st2 : State)
    (hop : op.chainsOnly = true)
    (hdbg : st.sr.m_dbgBranchGuardSrc = 0)
    (hempty : st.sr.m_topTranslation = 0 →
      st.sr.m_translations = [] ∧ st.sr.m_tailFallbackJumps = [])
    (hres : st.sr.m_topTranslation ≠ 0 →
      st.sr.m_translations.head? = some st.sr.m_topTranslation ∧
      ∀ b ∈ st.sr.m_incomingBranches, b.target specBackEnd st.code = st.sr.m_topTranslation)
    (hsep : ∀ a, (a ∈ st.sr.m_incomingBranches.map IncomingBranch.toSmash ∨
        a ∈ registeredAddrs (op :: ops)) →
      a ∉ st.sr.m_tailFallbackJumps.map IncomingBranch.toSmash ∧
      a ∉ suppliedTailAddrs (op :: ops))
    (h : op.apply specBackEnd mcg st = some st2) :
    st2.sr.m_dbgBranchGuardSrc = 0 ∧
    (st2.sr.m_topTranslation = 0 →
      st2.sr.m_translations = [] ∧ st2.sr.m_tailFallbackJumps = []) ∧
    (st2.sr.m_topTranslation ≠ 0 →
      st2.sr.m_translations.head? = some st2.sr.m_topTranslation ∧
      ∀ b ∈ st2.sr.m_incomingBranches,
        b.target specBackEnd st2.code = st2.sr.m_topTranslation) ∧
    (∀ a, (a ∈ st2.sr.m_incomingBranches.map IncomingBranch.toSmash ∨
        a ∈ registeredAddrs ops) →
      a ∉ st2.sr.m_tailFallbackJumps.map IncomingBranch.toSmash ∧
      a ∉ suppliedTailAddrs ops) := by
  cases op with
  | chainFrom br =>
    have hacc : br.type = Tag.ADDR ∨ mcg.isValidCodeAddress br.toSmash = true := by
      by_contra hn
      simp [Op.apply, SrcRec.chainFrom, hn] at h
    simp only [Op.apply, chainFrom_eq mcg st br hacc, Option.some.injEq] at h
    subst h
    refine ⟨hdbg, hempty, ?_, ?_⟩
    · intro htop
      obtain ⟨hhead, htarget⟩ := hres htop
      refine ⟨hhead, ?_⟩
      intro b hb
      rw [target_eq_read]
      simp only [store_apply]
      by_cases hbs : b.toSmash = br.toSmash
      · simp [hbs]
      · simp only [hbs, if_false]
        rcases List.mem_append.mp hb with hb1 | hb1
        · have := htarget b hb1
          rwa [target_eq_read] at this
        · simp only [List.mem_singleton] at hb1
          exact absurd (by rw [hb1]) hbs
    · intro a ha
      have hold := hsep a (by
        rcases ha with ha | ha
        · simp only [List.map_append, List.map_cons, List.map_nil, List.mem_append,
            List.mem_singleton] at ha
          rcases ha with ha | ha
          · exact Or.inl ha
          · exact Or.inr (by rw [registeredAddrs_chainFrom, ha]; exact List.mem_cons_self _ _)
        · exact Or.inr (by rw [registeredAddrs_chainFrom]; exact List.mem_cons_of_mem _ ha))
      rw [suppliedTailAddrs_chainFrom] at hold
      exact hold
  | newTranslation t tail =>
    have ht : t ≠ 0 := by simpa [Op.chainsOnly] using hop
    have hlimit : st.sr.m_translations.length ≤ mcg.options.EvalJitMaxTranslations := by
      by_contra hn
      simp [Op.apply, SrcRec.newTranslation, hn] at h
    simp only [Op.apply, newTranslation_eq mcg st t tail hlimit, Option.map_some',
      Option.some.injEq] at h
    subst h
    have hguard : st.sr.hasDebuggerGuard = false := by simp [SrcRec.hasDebuggerGuard, hdbg]
    refine ⟨hdbg, ?_, ?_, ?_⟩
    · intro htop
      by_cases h0 : st.sr.m_topTranslation = 0
      · simp [h0] at htop
        exact absurd htop ht
      · simp [h0] at htop
    · intro _
      by_cases h0 : st.sr.m_topTranslation = 0
      · obtain ⟨htr, _⟩ := hempty h0
        refine ⟨by simp [h0, htr], ?_⟩
        intro b hb
        have hb1 : b ∈ st.sr.m_incomingBranches := hb
        have hpatched := patchAll_target_of_mem st.sr.m_incomingBranches st.code t b hb1
        rw [target_eq_read] at hpatched ⊢
        simp only [h0, if_true]
        apply patchAll_keeps
        rw [patchIncomingBranches_no_guard _ _ _ _ hguard]
        exact hpatched
      · obtain ⟨hhead, htarget⟩ := hres h0
        refine ⟨?_, ?_⟩
        · simp only [h0, if_false]
          cases htr : st.sr.m_translations with
          | nil => rw [htr] at hhead; cases hhead
          | cons x xs => rw [htr] at hhead; simpa using hhead
        · intro b hb
          have hb1 : b ∈ st.sr.m_incomingBranches := hb
          have hnot := (hsep b.toSmash (Or.inl (List.mem_map_of_mem _ hb1))).1
          have hold := htarget b hb1
          rw [target_eq_read] at hold ⊢
          simp only [h0, if_false]
          rw [patchAll_of_not_mem _ _ _ _ hnot]
          exact hold
    · intro a ha
      have hold := hsep a (by
        rcases ha with ha | ha
        · exact Or.inl ha
        · exact Or.inr (by rw [registeredAddrs_newTranslation]; exact ha))
      rw [suppliedTailAddrs_newTranslation, List.mem_append, not_or] at hold
      exact hold.2
  | addDebuggerGuard g gb => simp [Op.chainsOnly] at hop
  | replaceOldTranslations =>
    have hmode : mcg.options.RepoAuthoritative = false ∨ mcg.options.EvalJitPGO = true := by
      by_contra hn
      simp [Op.apply, SrcRec.replaceOldTranslations, hn] at h
    simp only [Op.apply, replaceOldTranslations_eq mcg st hmode, Option.some.injEq] at h
    subst h
    refine ⟨hdbg, fun _ => ⟨rfl, rfl⟩, fun hne => absurd rfl hne, ?_⟩
    intro a ha
    have hold := hsep a (by
      rcases ha with ha | ha
      · exact Or.inl ha
      · exact Or.inr (by rw [registeredAddrs_replaceOldTranslations]; exact ha))
    rw [suppliedTailAddrs_replaceOldTranslations] at hold
    exact ⟨by simp, hold.2⟩
  | relocate rel => simp [Op.chainsOnly] at hop

theorem resolved_run (mcg : MCGenerator) (ops : List Op) (st st1 : State)
    (hops : ∀ op ∈ ops, op.chainsOnly = true)
    (hdbg : st.sr.m_dbgBranchGuardSrc = 0)
    (hempty : st.sr.m_topTranslation = 0 →
      st.sr.m_translations = [] ∧ st.sr.m_tailFallbackJumps = [])
    (hres : st.sr.m_topTranslation ≠ 0 →
      st.sr.m_translations.head? = some st.sr.m_topTranslation ∧
      ∀ b ∈ st.sr.m_incomingBranches, b.target specBackEnd st.code = st.sr.m_topTranslation)
    (hsep : ∀ a, (a ∈ st.sr.m_incomingBranches.map IncomingBranch.toSmash ∨
        a ∈ registeredAddrs ops) →
      a ∉ st.sr.m_tailFallbackJumps.map IncomingBranch.toSmash ∧
      a ∉ suppliedTailAddrs ops)
    (hrun : runOps specBackEnd mcg ops st = some st1) :
    st1.sr.m_topTranslation ≠ 0 →
      st1.sr.m_translations.head? = some st1.sr.m_topTranslation ∧
      ∀ b ∈ st1.sr.m_incomingBranches,
        b.target specBackEnd st1.code = st1.sr.m_topTranslation := by
  induction ops generalizing st with
  | nil =>
    rw [runOps_nil] at hrun
    cases hrun
    exact hres
  | cons op ops ih =>
    rw [runOps_cons] at hrun
    cases hop : op.apply specBackEnd mcg st with
    | none => rw [hop] at hrun; cases hrun
    | some st2 =>
      rw [hop] at hrun
      obtain ⟨h1, h2, h3, h4⟩ := resolved_step mcg op ops st st2
        (hops op (List.mem_cons_self op ops)) hdbg hempty hres hsep hop
      exact ih st2 (fun o ho => hops o (List.mem_cons_of_mem op ho)) h1 h2 h3 h4 hrun

/-- C18. With the modelled back end, in every state reached from a fresh
record by a sequence of `chainFrom`, `newTranslation` with a non-null entry
address and `replaceOldTranslations` calls that complete, where the registered
incoming branches and the supplied tail branches are at pairwise distinct
smash addresses: whenever the top translation is non-null, there is a
translation, the top translation is the first one, and every incoming branch
has `target()` equal to the top translation. -/
theorem resolved_invariant (mcg : MCGenerator) (anchor : TCA) (code : CodeCache)
    (ops : List Op) (st : State)
    (hops : ∀ op ∈ ops, op.chainsOnly = true)
    (hdistinct : (registeredAddrs ops ++ suppliedTailAddrs ops).Nodup)
    (hrun : runOps specBackEnd mcg ops { sr := SrcRec.fresh anchor, code := code } = some st)
    (htop : st.sr.m_topTranslation ≠ 0) :
    st.sr.m_translations ≠ [] ∧
    st.sr.m_translations.head? = some st.sr.m_topTranslation ∧
    ∀ b ∈ st.sr.m_incomingBranches, b.target specBackEnd st.code = st.sr.m_topTranslation := by
  have hdisj := (List.nodup_append.mp hdistinct).2.2
  have h := resolved_run mcg ops { sr := SrcRec.fresh anchor, code := code } st hops rfl
    (fun _ => ⟨rfl, rfl⟩) (fun hne => absurd rfl hne)
    (by
      intro a ha
      rcases ha with ha | ha
      · simp [SrcRec.fresh] at ha
      · exact ⟨by simp [SrcRec.fresh], fun hs => hdisj ha hs⟩)
    hrun htop
  refine ⟨?_, h.1, h.2⟩
  intro hnil
  rw [hnil] at h
  cases h.1

/-- C18 at a concrete input: after `chainOpsEx` on the fresh record with anchor
`5` the top translation is `500`, the only translation, and both incoming
branches go to it. -/
theorem resolved_invariant_witness :
    ∃ st, runOps specBackEnd mcgEx chainOpsEx { sr := SrcRec.fresh 5, code := codeEx }
        = some st ∧
      st.sr.m_topTranslation = 500 ∧
      st.sr.m_incomingBranches =
        [{ type := Tag.JMP, toSmash := 10 }, { type := Tag.ADDR, toSmash := 16 }] ∧
      st.sr.m_translations ≠ [] ∧
      st.sr.m_translations.head? = some st.sr.m_topTranslation ∧
      ∀ b ∈ st.sr.m_incomingBranches,
        b.target specBackEnd st.code = st.sr.m_topTranslation := by
  have hsome : (runOps specBackEnd mcgEx chainOpsEx
      { sr := SrcRec.fresh 5, code := codeEx }).isSome = true := by decide
  obtain ⟨st, hst⟩ := Option.isSome_iff_exists.mp hsome
  have hval : (runOps specBackEnd mcgEx chainOpsEx
      { sr := SrcRec.fresh 5, code := codeEx }).map
      (fun s => (s.sr.m_topTranslation, s.sr.m_incomingBranches))
      = some (500, [{ type := Tag.JMP, toSmash := 10 }, { type := Tag.ADDR, toSmash := 16 }]) := by
    decide
  rw [hst] at hval
  simp only [Option.map_some', Option.some.injEq, Prod.mk.injEq] at hval
  have h := resolved_invariant mcgEx 5 codeEx chainOpsEx st (by decide) (by decide) hst
    (by rw [hval.1]; decide)
  exact ⟨st, hst, hval.1, hval.2, h⟩

end HPHP.jit
